import Mathlib

/-!
Verification development for the SQL-of-Thought demo pipeline.

This file shallowly embeds the core logic of the repository:

* the schema-qualification rewrite applied by the server endpoint
  (`server.ts`, the chained `String.replace` calls on `sqlWithSchema`),
* the SQL-cleaning and execution logic of `src/tools/sql-executor-tool.ts`,
* the server pipeline and its bounded correction loop
  (`app.post('/api/sql-of-thought')`), including the streamed event trace,
* the SSE `emit` / `safeEnd` helpers.

JavaScript strings are modelled as `List Char`; the specific regular
expressions appearing in the source are modelled as deterministic
left-to-right scanners with exactly the semantics of `String.replace`
with a global regex (the replaced region is not rescanned).
-/

namespace SqlOfThought

/-- ASCII lower-casing, as performed by a case-insensitive (`/i`) regex
match on the ASCII patterns appearing in the source. -/
def lc (c : Char) : Char :=
  if 65 ≤ c.toNat ∧ c.toNat ≤ 90 then Char.ofNat (c.toNat + 32) else c

/-- JavaScript `\w` (the source regexes are not unicode-aware):
`[A-Za-z0-9_]`. -/
def isWordChar (c : Char) : Bool :=
  (97 ≤ c.toNat && c.toNat ≤ 122) || (65 ≤ c.toNat && c.toNat ≤ 90) ||
  (48 ≤ c.toNat && c.toNat ≤ 57) || c = '_'

/-- JavaScript `\s` restricted to the ASCII range (plus NBSP), which covers
every whitespace character that can occur in the strings this repository
manipulates. -/
def isSpaceChar (c : Char) : Bool :=
  c.toNat = 32 || c.toNat = 9 || c.toNat = 10 || c.toNat = 13 ||
  c.toNat = 11 || c.toNat = 12 || c.toNat = 160

/-- Case-insensitive "the pattern `p` is a prefix of `l`". -/
def ciPre : List Char → List Char → Bool
  | [], _ => true
  | _ :: _, [] => false
  | p :: ps, c :: cs => (lc p = lc c) && ciPre ps cs

/-- The literal `chinook.` (the catalog qualification inserted by the
rewrite). -/
def chinookDot : List Char := ['c', 'h', 'i', 'n', 'o', 'o', 'k', '.']

/-- The literal `chinook.chinook.` matched by
`.replace(/chinook\.chinook\./gi, 'chinook.')`. -/
def doublePat : List Char :=
  ['c', 'h', 'i', 'n', 'o', 'o', 'k', '.', 'c', 'h', 'i', 'n', 'o', 'o', 'k', '.']

/-- One scan of `.replace(/chinook\.chinook\./gi, 'chinook.')`: fuel-indexed
left-to-right scanner; the replacement text is not rescanned, exactly as in
JavaScript `String.replace` with a global regex.  The fuel is always
instantiated with the length of the list (each step consumes at least one
character), so the fuel-exhaustion branch is unreachable. -/
def collapseGo : Nat → List Char → List Char
  | 0, l => l
  | _ + 1, [] => []
  | fuel + 1, c :: t =>
    if ciPre doublePat (c :: t) then
      chinookDot ++ collapseGo fuel ((c :: t).drop 16)
    else
      c :: collapseGo fuel t

/-- `.replace(/chinook\.chinook\./gi, 'chinook.')` on a whole string. -/
def collapse (l : List Char) : List Char := collapseGo l.length l

/-- Attempted match of `/KW\s+(?!chinook\.)(\w+)/i` at the head of `l`,
for a four-letter keyword `kw` (given lower-case).  Returns the capture
`$1` and the remainder after the match.  `\s+` is greedy; backtracking it
can never succeed (a shorter whitespace run leaves a whitespace character
where `\w+` must match), so the scan is deterministic. -/
def matchKw (kw : List Char) (l : List Char) : Option (List Char × List Char) :=
  if ciPre kw l then
    let afterKw := l.drop 4
    let ws := afterKw.takeWhile isSpaceChar
    let rest0 := afterKw.dropWhile isSpaceChar
    if ws = [] then none
    else if ciPre chinookDot rest0 then none
    else
      let ident := rest0.takeWhile isWordChar
      if ident = [] then none
      else some (ident, rest0.dropWhile isWordChar)
  else none

/-- One scan of `.replace(/KW\s+(?!chinook\.)(\w+)/gi, 'KW chinook.$1')`.
`kwUp` is the literal keyword written in the replacement string (the
replacement normalises the keyword to upper case and the whitespace run to
a single space, as written in the source). -/
def qualGo (kw kwUp : List Char) : Nat → List Char → List Char
  | 0, l => l
  | _ + 1, [] => []
  | fuel + 1, c :: t =>
    match matchKw kw (c :: t) with
    | some (ident, rest) =>
        kwUp ++ (' ' :: chinookDot) ++ ident ++ qualGo kw kwUp fuel rest
    | none => c :: qualGo kw kwUp fuel t

/-- `.replace(/KW\s+(?!chinook\.)(\w+)/gi, 'KW chinook.$1')` on a whole
string. -/
def qualify (kw kwUp : List Char) (l : List Char) : List Char :=
  qualGo kw kwUp l.length l

def fromKw : List Char := ['f', 'r', 'o', 'm']
def fromUp : List Char := ['F', 'R', 'O', 'M']
def joinKw : List Char := ['j', 'o', 'i', 'n']
def joinUp : List Char := ['J', 'O', 'I', 'N']

/-- The schema-qualification rewrite of the server endpoint
(`server.ts` lines 390-393 and 441-444):

```
.replace(/chinook\.chinook\./gi, 'chinook.')
.replace(/FROM\s+(?!chinook\.)(\w+)/gi, 'FROM chinook.$1')
.replace(/JOIN\s+(?!chinook\.)(\w+)/gi, 'JOIN chinook.$1')
```
-/
def sqlWithSchemaRewriteL (l : List Char) : List Char :=
  qualify joinKw joinUp (qualify fromKw fromUp (collapse l))

/-- The server rewrite on `String`. -/
def sqlWithSchemaRewrite (s : String) : String :=
  ⟨sqlWithSchemaRewriteL s.data⟩

/-- Attempted match of `/KW\s+(\w+)/i` (no negative lookahead) at the head
of `l`, as used by `executeSQL` in `sql-executor-tool.ts` lines 70-71. -/
def matchKwNoLA (kw : List Char) (l : List Char) : Option (List Char × List Char) :=
  if ciPre kw l then
    let afterKw := l.drop 4
    let ws := afterKw.takeWhile isSpaceChar
    let rest0 := afterKw.dropWhile isSpaceChar
    if ws = [] then none
    else
      let ident := rest0.takeWhile isWordChar
      if ident = [] then none
      else some (ident, rest0.dropWhile isWordChar)
  else none

/-- Scanner for the executor tool's naive rewrite. -/
def qualNaiveGo (kw kwUp : List Char) : Nat → List Char → List Char
  | 0, l => l
  | _ + 1, [] => []
  | fuel + 1, c :: t =>
    match matchKwNoLA kw (c :: t) with
    | some (ident, rest) =>
        kwUp ++ (' ' :: chinookDot) ++ ident ++ qualNaiveGo kw kwUp fuel rest
    | none => c :: qualNaiveGo kw kwUp fuel t

/-- The executor tool's schema rewrite (`sql-executor-tool.ts` lines 70-71):
`replace(/FROM\s+(\w+)/gi, 'FROM chinook.$1').replace(/JOIN\s+(\w+)/gi, 'JOIN chinook.$1')`. -/
def toolRewriteL (l : List Char) : List Char :=
  qualNaiveGo joinKw joinUp
    (qualNaiveGo fromKw fromUp l.length l).length
    (qualNaiveGo fromKw fromUp l.length l)

def toolRewrite (s : String) : String := ⟨toolRewriteL s.data⟩

/-- The single-line-comment removal `.replace(` with regex `--.*$` and
flags `gm`, replacement `''`): drop everything from `--` to the end of the
line (the newline itself is kept). -/
def stripLineGo : Nat → List Char → List Char
  | 0, l => l
  | _ + 1, [] => []
  | fuel + 1, '-' :: '-' :: t =>
      stripLineGo fuel (t.dropWhile (fun c => decide (c ≠ '\n')))
  | fuel + 1, c :: t => c :: stripLineGo fuel t

def stripLine (l : List Char) : List Char := stripLineGo l.length l

/-- Remainder after the first `*/`, if any (`[\s\S]*?\*\/` is non-greedy). -/
def afterBlockClose : List Char → Option (List Char)
  | [] => none
  | '*' :: '/' :: t => some t
  | _ :: t => afterBlockClose t

/-- `.replace(/\/\*[\s\S]*?\*\//g, '')`: drop each `/* ... */` block up to
the first closing `*/`; a `/*` with no closing `*/` does not match and is
kept. -/
def stripBlockGo : Nat → List Char → List Char
  | 0, l => l
  | _ + 1, [] => []
  | fuel + 1, '/' :: '*' :: t =>
      match afterBlockClose t with
      | some rest => stripBlockGo fuel rest
      | none => '/' :: stripBlockGo fuel ('*' :: t)
  | fuel + 1, c :: t => c :: stripBlockGo fuel t

def stripBlock (l : List Char) : List Char := stripBlockGo l.length l

/-- JavaScript `String.prototype.trim`. -/
def jsTrim (l : List Char) : List Char :=
  ((l.dropWhile isSpaceChar).reverse.dropWhile isSpaceChar).reverse

/-- The SQL cleaning of `executeSQL` (`sql-executor-tool.ts` lines 34-37):
single-line comments, then block comments, then trim. -/
def cleanSQLL (l : List Char) : List Char := jsTrim (stripBlock (stripLine l))

def cleanSQL (s : String) : String := ⟨cleanSQLL s.data⟩

/-! ## Values and rows

DuckDB returns result rows as JavaScript objects; 64-bit integer columns
arrive as JavaScript `bigint` values.  A row is modelled as an association
list from column name to value. -/

inductive JsValue
  | num (n : Int)
  | bigint (n : Int)
  | str (s : String)
  | null
deriving DecidableEq

abbrev Row := List (String × JsValue)

/-- Decimal digit characters. -/
def digitChar (d : Nat) : Char := Char.ofNat (48 + d)

def charToDigit (c : Char) : Nat := c.toNat - 48

/-- Big-endian decimal digits of `n`, accumulator style.  The fuel is
always instantiated with `n` itself, which bounds the digit count. -/
def natDecAux : Nat → Nat → List Char → List Char
  | 0, _, acc => acc
  | _ + 1, 0, acc => acc
  | fuel + 1, n, acc => natDecAux fuel (n / 10) (digitChar (n % 10) :: acc)

/-- Decimal representation of a natural number, as produced by
`BigInt.prototype.toString`. -/
def natDecRepr (n : Nat) : List Char :=
  if n = 0 then ['0'] else natDecAux n n []

/-- Decimal representation of an integer (`value.toString()` on a
JavaScript bigint). -/
def intDecRepr (n : Int) : List Char :=
  if n < 0 then '-' :: natDecRepr n.natAbs else natDecRepr n.natAbs

/-- Decoder for decimal strings; inverse of `intDecRepr` on its image. -/
def decDecode (l : List Char) : Int :=
  if l.head? = some '-' then
    -(Nat.ofDigits 10 (((l.drop 1).map charToDigit).reverse) : Nat)
  else
    (Nat.ofDigits 10 ((l.map charToDigit).reverse) : Nat)

/-- The per-value conversion of the server's result cleaning
(`typeof value === 'bigint' ? value.toString() : value`). -/
def cleanValue : JsValue → JsValue
  | .bigint n => .str ⟨intDecRepr n⟩
  | v => v

/-- One row of `cleanResults` (`server.ts` lines 415-421). -/
def cleanRow (r : Row) : Row := r.map (fun p => (p.1, cleanValue p.2))

/-- `results.map(...)` of `server.ts` line 415. -/
def cleanResults (rows : List Row) : List Row := rows.map cleanRow

/-! ## The server pipeline and its correction loop

`app.post('/api/sql-of-thought')` in `server.ts`.  Each language-model
call (and the `JSON.parse` of its response) is modelled as an
environment-supplied `Except`: `.error` is a thrown exception
(rejected promise / JSON parse error), which propagates to the outer
`try/catch` of the handler.  `exec` models `db.all` on the current SQL
string at a given attempt index. -/

inductive Agent
  | schema | subproblem | queryplan | sql | execute | correction
deriving DecidableEq

inductive Event
  | agentStart (a : Agent)
  | agentComplete (a : Agent) (output : String)
  | agentError (a : Agent) (error : String)
  | agentUpdate (a : Agent) (output : String)
  | complete (success : Bool) (sql : String) (results : List Row) (attempts : Nat)
  | error (msg : String)
deriving DecidableEq

inductive ExecResult
  | ok (rows : List Row)
  | err (msg : String)
deriving DecidableEq

structure Env where
  hasApiKey : Bool
  hasQuestion : Bool
  /-- `getSchema()` plus `schemaLinkingAgent` (including its `JSON.parse`). -/
  schemaStage : Except String Unit
  schemaOutput : String
  /-- `subproblemAgent` (including its `JSON.parse`). -/
  subproblemStage : Except String Unit
  subproblemOutput : String
  /-- `queryPlanAgent` (including its `JSON.parse`). -/
  queryplanStage : Except String Unit
  queryplanOutput : String
  /-- `sqlGenerationAgent`: returns the generated SQL (code fences already
  stripped by the agent). -/
  sqlStage : Except String String
  /-- `db.all(sqlWithSchema, ...)` at a given attempt index. -/
  exec : Nat → String → ExecResult
  /-- `correctionPlanAgent` at a given attempt (including its `JSON.parse`);
  the payload is the display string built from the plan. -/
  correctionPlanStage : Nat → Except String String
  /-- `correctionSQLAgent` at a given attempt: the replacement SQL. -/
  correctionSQL : Nat → Except String String

/-- The `while (attempt < maxAttempts && !success)` loop of
`server.ts` lines 396-459, with `maxAttempts = 3`.  Returns the events
emitted by the loop and either the final loop state
`(success, attempt, results)` or a thrown exception.  The fuel is always
instantiated with 3; every iteration increments `attempt` or sets
`success`, so fuel 3 is never exhausted starting from `attempt = 0`. -/
def runLoop (env : Env) :
    Nat → Nat → Bool → String → List Row →
    List Event × Except String (Bool × Nat × List Row)
  | 0, attempt, success, _, results => ([], .ok (success, attempt, results))
  | fuel + 1, attempt, success, sqlWS, results =>
    if attempt < 3 ∧ success = false then
      match env.exec attempt sqlWS with
      | .ok rows =>
        let clean := cleanResults rows
        let (evs, r) := runLoop env fuel attempt true sqlWS clean
        (Event.agentStart .execute ::
         Event.agentComplete .execute (toString clean.length ++ " rows returned") ::
         evs, r)
      | .err msg =>
        if attempt < 2 then
          match env.correctionPlanStage attempt with
          | .error e =>
            ([Event.agentStart .execute, Event.agentError .execute msg,
              Event.agentStart .correction], .error e)
          | .ok planOut =>
            match env.correctionSQL attempt with
            | .error e =>
              ([Event.agentStart .execute, Event.agentError .execute msg,
                Event.agentStart .correction], .error e)
            | .ok corrected =>
              let newSql := sqlWithSchemaRewrite corrected
              let (evs, r) := runLoop env fuel (attempt + 1) success newSql results
              (Event.agentStart .execute ::
               Event.agentError .execute msg ::
               Event.agentStart .correction ::
               Event.agentComplete .correction
                 ("Attempt " ++ toString (attempt + 2) ++ ": " ++ planOut ++
                  " Error: " ++ msg) ::
               Event.agentUpdate .sql
                 ("Corrected SQL (Attempt " ++ toString (attempt + 2) ++ "): " ++
                  newSql) ::
               evs, r)
        else
          let (evs, r) := runLoop env fuel (attempt + 1) success sqlWS results
          (Event.agentStart .execute ::
           Event.agentError .execute msg ::
           Event.agentComplete .correction
             ("Failed after 3 attempts. Final error: " ++ msg) ::
           evs, r)
    else ([], .ok (success, attempt, results))

/-- The whole request handler (`server.ts` lines 320-491): the missing
key/question guards, the four generation stages, the correction loop and
the terminal `complete`/`error` event.  A thrown exception anywhere is
caught by the outer `try/catch`, which writes a terminal `error`
envelope. -/
def runPipeline (env : Env) : List Event :=
  if env.hasApiKey = false ∨ env.hasQuestion = false then []
  else
    match env.schemaStage with
    | .error e => [.agentStart .schema, .error e]
    | .ok _ =>
      Event.agentStart .schema :: Event.agentComplete .schema env.schemaOutput ::
      match env.subproblemStage with
      | .error e => [.agentStart .subproblem, .error e]
      | .ok _ =>
        Event.agentStart .subproblem ::
        Event.agentComplete .subproblem env.subproblemOutput ::
        match env.queryplanStage with
        | .error e => [.agentStart .queryplan, .error e]
        | .ok _ =>
          Event.agentStart .queryplan ::
          Event.agentComplete .queryplan env.queryplanOutput ::
          match env.sqlStage with
          | .error e => [.agentStart .sql, .error e]
          | .ok generatedSQL =>
            let sqlWS := sqlWithSchemaRewrite generatedSQL
            Event.agentStart .sql :: Event.agentComplete .sql sqlWS ::
            match runLoop env 3 0 false sqlWS [] with
            | (evs, .error e) => evs ++ [.error e]
            | (evs, .ok (success, attempt, results)) =>
              evs ++ [.complete success generatedSQL results (attempt + 1)]

/-! ## The SQL Executor tool

`executeSQL` of `src/tools/sql-executor-tool.ts`.  The DuckDB calls are
modelled by an environment; the function also returns the list of
database calls it issued, in order.  Every branch of the source resolves
the promise (it never rejects), so the model is a total function. -/

inductive DbCall
  | install
  | attach
  | query (sql : String)
deriving DecidableEq

structure DbEnv where
  /-- `INSTALL sqlite; LOAD sqlite;` -/
  installRes : Except String Unit
  /-- `ATTACH ... AS chinook (TYPE SQLITE);` -/
  attachRes : Except String Unit
  /-- `db.all(sqlWithSchema, ...)` -/
  runRes : String → Except String (List Row)
  /-- wall-clock `Date.now() - startTime` -/
  elapsed : Nat

/-- `SQLExecutorOutputSchema` of `sql-executor-tool.ts`. -/
structure SQLExecutorOutput where
  success : Bool
  result : Option (List Row) := none
  error : Option String := none
  row_count : Option Nat := none
  execution_time_ms : Option Nat := none
deriving DecidableEq

/-- `executeSQL(sql, dbPath)` (`sql-executor-tool.ts` lines 28-95). -/
def executeSQL (sql : String) (env : DbEnv) : SQLExecutorOutput × List DbCall :=
  let cleanedSQL := cleanSQL sql
  if cleanedSQL = "" then
    ({ success := false, error := some "Empty SQL query after cleaning" }, [])
  else
    match env.installRes with
    | .error m =>
      ({ success := false,
         error := some ("Failed to load SQLite extension: " ++ m),
         execution_time_ms := some env.elapsed }, [.install])
    | .ok _ =>
      match env.attachRes with
      | .error m =>
        ({ success := false,
           error := some ("Failed to attach database: " ++ m),
           execution_time_ms := some env.elapsed }, [.install, .attach])
      | .ok _ =>
        let sqlWithSchema := toolRewrite cleanedSQL
        match env.runRes sqlWithSchema with
        | .error m =>
          ({ success := false, error := some m,
             execution_time_ms := some env.elapsed },
           [.install, .attach, .query sqlWithSchema])
        | .ok rows =>
          ({ success := true, result := some rows, row_count := some rows.length,
             execution_time_ms := some env.elapsed },
           [.install, .attach, .query sqlWithSchema])

/-! ## The SSE emitter

`emit`, `safeEnd` and the `req.on('close')` handler of `server.ts`
(lines 321-358 and 487-490).  `res.write` / `res.end` on a closed
transport may throw; both are wrapped in `try/catch`, so the handler
itself never observes an exception.  The `Except` in the result type is
the exception visible to the caller: both functions always return
`.ok`. -/

structure ConnState where
  responseEnded : Bool
  written : List String
  endCalls : Nat
deriving DecidableEq

structure Transport where
  writeThrows : Bool
  endThrows : Bool

/-- Raw `res.write` (may throw when the transport is closed). -/
def resWrite (t : Transport) (st : ConnState) (msg : String) :
    Except String ConnState :=
  if t.writeThrows then .error "write after end"
  else .ok { st with written := st.written ++ [msg] }

/-- Raw `res.end` (may throw). -/
def resEnd (t : Transport) (st : ConnState) : Except String ConnState :=
  if t.endThrows then .error "end failed"
  else .ok { st with endCalls := st.endCalls + 1 }

/-- `emit` (`server.ts` lines 350-358): early-return when the response has
ended, otherwise `try { res.write(...) } catch { console.error(...) }`. -/
def emit (t : Transport) (st : ConnState) (msg : String) :
    Except String ConnState :=
  if st.responseEnded then .ok st
  else
    match resWrite t st msg with
    | .ok st1 => .ok st1
    | .error _ => .ok st

/-- `safeEnd` (`server.ts` lines 323-332): flips `responseEnded` and calls
`res.end()` inside `try/catch`. -/
def safeEnd (t : Transport) (st : ConnState) : Except String ConnState :=
  if st.responseEnded then .ok st
  else
    let st1 := { st with responseEnded := true }
    match resEnd t st1 with
    | .ok st2 => .ok st2
    | .error _ => .ok st1

/-- The `req.on('close')` handler (`server.ts` lines 487-490). -/
def onClose (st : ConnState) : ConnState := { st with responseEnded := true }

/-! ## Trace predicates and concrete environments -/

/-- The agent named by a per-stage event (`none` for the terminal
`complete`/`error` envelopes). -/
def eventAgent : Event → Option Agent
  | .agentStart a => some a
  | .agentComplete a _ => some a
  | .agentError a _ => some a
  | .agentUpdate a _ => some a
  | _ => none

/-- Boolean membership in a list of agents. -/
def seenHas (a : Agent) : List Agent → Bool
  | [] => false
  | b :: t => decide (a = b) || seenHas a t

/-- Scan a trace left to right, tracking which agents have already
emitted `agent_start`; every `agent_complete` / `agent_error` must name an
agent that has already started. -/
def startBeforeOk : List Agent → List Event → Bool
  | _, [] => true
  | seen, Event.agentStart a :: rest => startBeforeOk (a :: seen) rest
  | seen, Event.agentComplete a _ :: rest => seenHas a seen && startBeforeOk seen rest
  | seen, Event.agentError a _ :: rest => seenHas a seen && startBeforeOk seen rest
  | seen, _ :: rest => startBeforeOk seen rest

/-- A fully healthy environment: every stage parses, the first execution
succeeds only on the schema-qualified query. -/
def envC3 : Env where
  hasApiKey := true
  hasQuestion := true
  schemaStage := .ok ()
  schemaOutput := "Tables: customers"
  subproblemStage := .ok ()
  subproblemOutput := "Clauses: SELECT, FROM"
  queryplanStage := .ok ()
  queryplanOutput := "plan"
  sqlStage := .ok "SELECT * FROM customers"
  exec := fun _ s =>
    if s = "SELECT * FROM chinook.customers" then .ok [[("CustomerId", .bigint 1)]]
    else .err "wrong sql executed"
  correctionPlanStage := fun _ => .ok "schema_link.col_missing"
  correctionSQL := fun _ => .ok "SELECT * FROM customers"

/-- An environment in which every execution attempt fails. -/
def envAllFail : Env :=
  { envC3 with
    exec := fun _ _ => .err "Catalog Error: Table with name t does not exist" }

/-- An environment whose subproblem stage returns malformed JSON. -/
def envC4 : Env :=
  { envC3 with subproblemStage := .error "Unexpected token o in JSON" }

/-- An environment whose first execution succeeds immediately. -/
def envC6 : Env :=
  { envC3 with exec := fun _ _ => .ok [[("Name", .str "Bob")]] }

/-- A database environment whose query returns a 64-bit integer column
value exceeding 2 to the 53rd power. -/
def envBig : DbEnv where
  installRes := .ok ()
  attachRes := .ok ()
  runRes := fun _ => .ok [[("Total", .bigint (2 ^ 60))]]
  elapsed := 3

/-- A healthy database environment whose query fails with a parser
error. -/
def envDb : DbEnv where
  installRes := .ok ()
  attachRes := .ok ()
  runRes := fun _ => .error "Parser Error: syntax error at end of input"
  elapsed := 7

/-! ## Hazard-freedom for the schema-qualification rewrite

The server rewrite is not idempotent on arbitrary strings.  `rewriteSafe`
is a decidable condition under which idempotence is proved: the input (and
its partially rewritten form) must contain no doubled catalog prefix, no
keyword embedded directly after a word character, and no captured table
identifier that is itself one of the keywords. -/

/-- Case-insensitive equality of character lists. -/
def ciEq : List Char → List Char → Bool
  | [], [] => true
  | x :: xs, y :: ys => (lc x = lc y) && ciEq xs ys
  | _, _ => false

/-- `p` holds on every suffix of the list. -/
def allSuff (p : List Char → Bool) : List Char → Bool
  | [] => p []
  | c :: t => p (c :: t) && allSuff p t

/-- A word character immediately followed by a keyword occurrence: the
rewrite can expose such an embedded keyword to a later scan. -/
def midKwHaz (kwT : List Char) : List Char → Bool
  | c :: w => isWordChar c && ciPre kwT w
  | [] => false

/-- A captured table identifier that is itself a keyword. -/
def kwIdentHaz (kwS kwT : List Char) (u : List Char) : Bool :=
  match matchKw kwS u with
  | some (i, _) => ciEq i kwT
  | none => false

/-- All idempotence hazards at one position. -/
def hazAt (u : List Char) : Bool :=
  ciPre doublePat u || midKwHaz fromKw u || midKwHaz joinKw u ||
  kwIdentHaz fromKw fromKw u || kwIdentHaz fromKw joinKw u ||
  kwIdentHaz joinKw fromKw u || kwIdentHaz joinKw joinKw u

/-- No hazard at any position. -/
def hazFree (l : List Char) : Bool := allSuff (fun u => !hazAt u) l

/-- Decidable idempotence condition for the server rewrite: the input and
the output of the `FROM` pass are both hazard-free. -/
def rewriteSafe (l : List Char) : Bool :=
  hazFree l && hazFree (qualify fromKw fromUp (collapse l))

/-! # Theorems -/

/-- Once `success` is `true` the `while` condition fails: the loop emits
nothing further, performs no execution and returns its state unchanged. -/
theorem runLoop_success_state (env : Env) :
    ∀ fuel a s r, runLoop env fuel a true s r = ([], .ok (true, a, r)) := by
  intro fuel a s r
  cases fuel <;> simp [runLoop]

/-- A successful execution attempt sets `success`, records the cleaned
rows and ends the loop. -/
theorem runLoop_exec_ok (env : Env) (fuel a : Nat) (s : String) (r rows : List Row)
    (ha : a < 3) (hx : env.exec a s = .ok rows) :
    runLoop env (fuel + 1) a false s r =
      ([Event.agentStart .execute,
        Event.agentComplete .execute
          (toString (cleanResults rows).length ++ " rows returned")],
       .ok (true, a, cleanResults rows)) := by
  simp [runLoop, ha, hx, runLoop_success_state]

/-- Terminal envelopes (`complete`/`error`) carry no agent field, so they
do not affect the start-before-completion check. -/
theorem startBeforeOk_append_terminal (t : Event) (ht : eventAgent t = none) :
    ∀ l seen, startBeforeOk seen (l ++ [t]) = startBeforeOk seen l := by
  intro l
  induction l with
  | nil =>
    intro seen
    cases t <;> simp [eventAgent] at ht ⊢ <;> simp [startBeforeOk]
  | cons e rest ih =>
    intro seen
    cases e <;> simp [startBeforeOk, ih]

/-- Every suffix of the correction loop respects start-before-completion,
as long as a `correction` start is already on record whenever the loop is
entered at the final attempt (the terminal-failure branch emits an
`agent_complete` for `correction` without a fresh `agent_start`; the two
preceding iterations have necessarily emitted one). -/
theorem runLoop_startBefore (env : Env) :
    ∀ fuel attempt success s r seen,
      (2 ≤ attempt → seenHas Agent.correction seen = true) →
      startBeforeOk seen (runLoop env fuel attempt success s r).1 = true := by
  intro fuel
  induction fuel with
  | zero => intro attempt success s r seen _; simp [runLoop, startBeforeOk]
  | succ f ih =>
    intro attempt success s r seen hseen
    by_cases hc : attempt < 3 ∧ success = false
    · rcases hx : env.exec attempt s with rows | msg
      · simp [runLoop, hc.1, hc.2, hx, runLoop_success_state, startBeforeOk, seenHas]
      · by_cases h2 : attempt < 2
        · rcases hp : env.correctionPlanStage attempt with e | planOut
          · simp [runLoop, hc.1, hc.2, hx, h2, hp, startBeforeOk, seenHas]
          · rcases hq : env.correctionSQL attempt with e | corrected
            · simp [runLoop, hc.1, hc.2, hx, h2, hp, hq, startBeforeOk, seenHas]
            · have hrec := ih (attempt + 1) false
                (sqlWithSchemaRewrite corrected) r
                (Agent.correction :: Agent.execute :: seen)
                (by intro _; simp [seenHas])
              simp [runLoop, hc.1, hc.2, hx, h2, hp, hq, startBeforeOk, seenHas]
              exact hrec
        · have hrec := ih (attempt + 1) false s r (Agent.execute :: seen)
            (by intro _
                have h3 := hseen (by omega)
                simp [seenHas, h3])
          have h3 : seenHas Agent.correction seen = true := hseen (by omega)
          simp [runLoop, hc.1, hc.2, hx, h2, startBeforeOk, seenHas, h3]
          exact hrec
    · simp [runLoop, hc, startBeforeOk]

/-- C7 (confirmed): in every run, for every agent `X`, an
`agent_start {agent: X}` event is emitted before any `agent_complete` or
`agent_error` event with agent `X`; the emitted sequence preserves
start-before-completion order for each stage. -/
theorem c7_start_before_complete (env : Env) :
    startBeforeOk [] (runPipeline env) = true := by
  unfold runPipeline
  by_cases hk : env.hasApiKey = false ∨ env.hasQuestion = false
  · simp [hk, startBeforeOk]
  · rcases h1 : env.schemaStage with e | u
    · simp [hk, h1, startBeforeOk, seenHas]
    · rcases h2 : env.subproblemStage with e | u2
      · simp [hk, h1, h2, startBeforeOk, seenHas]
      · rcases h3 : env.queryplanStage with e | u3
        · simp [hk, h1, h2, h3, startBeforeOk, seenHas]
        · rcases h4 : env.sqlStage with e | gen
          · simp [hk, h1, h2, h3, h4, startBeforeOk, seenHas]
          · have hloop := runLoop_startBefore env 3 0 false
              (sqlWithSchemaRewrite gen) []
              [Agent.sql, Agent.queryplan, Agent.subproblem, Agent.schema]
              (by intro h; omega)
            rcases hR : runLoop env 3 0 false (sqlWithSchemaRewrite gen) []
              with ⟨evs, res⟩
            rw [hR] at hloop
            rcases res with e | ⟨success, attempt, results⟩
            · simp [hk, h1, h2, h3, h4, hR, startBeforeOk, seenHas,
                startBeforeOk_append_terminal (Event.error e) rfl]
              exact hloop
            · simp [hk, h1, h2, h3, h4, hR, startBeforeOk, seenHas,
                startBeforeOk_append_terminal
                  (Event.complete success gen results (attempt + 1)) rfl]
              exact hloop

/-- C6 (confirmed): if the first execution attempt succeeds, no event of
any kind carrying the `correction` agent is ever emitted during the
run. -/
theorem c6_no_correction_events_on_first_success (env : Env)
    (rows : List Row) (gen : String)
    (hk : env.hasApiKey = true) (hq : env.hasQuestion = true)
    (h1 : env.schemaStage = .ok ()) (h2 : env.subproblemStage = .ok ())
    (h3 : env.queryplanStage = .ok ()) (h4 : env.sqlStage = .ok gen)
    (hx : env.exec 0 (sqlWithSchemaRewrite gen) = .ok rows) :
    ∀ e ∈ runPipeline env, eventAgent e ≠ some Agent.correction := by
  have htrace : runPipeline env =
      [Event.agentStart .schema, Event.agentComplete .schema env.schemaOutput,
       Event.agentStart .subproblem,
       Event.agentComplete .subproblem env.subproblemOutput,
       Event.agentStart .queryplan,
       Event.agentComplete .queryplan env.queryplanOutput,
       Event.agentStart .sql, Event.agentComplete .sql (sqlWithSchemaRewrite gen),
       Event.agentStart .execute,
       Event.agentComplete .execute
         (toString (cleanResults rows).length ++ " rows returned"),
       Event.complete true gen (cleanResults rows) 1] := by
    simp [runPipeline, hk, hq, h1, h2, h3, h4,
      runLoop_exec_ok env 2 0 _ _ rows (by omega) hx]
  rw [htrace]
  intro e he
  simp only [List.mem_cons, List.not_mem_nil, or_false] at he
  rcases he with h|h|h|h|h|h|h|h|h|h|h <;> subst h <;> simp [eventAgent]

/-- Witness for C6 at a concrete environment whose first execution
succeeds. -/
theorem c6_witness :
    envC6.hasApiKey = true ∧
    envC6.exec 0 (sqlWithSchemaRewrite "SELECT * FROM customers") =
      .ok [[("Name", JsValue.str "Bob")]] ∧
    (∀ e ∈ runPipeline envC6, eventAgent e ≠ some Agent.correction) :=
  ⟨rfl, rfl,
    c6_no_correction_events_on_first_success envC6
      [[("Name", JsValue.str "Bob")]] "SELECT * FROM customers"
      rfl rfl rfl rfl rfl rfl rfl⟩

/-- C1 (code bug): when every execution attempt fails, the terminal
`complete` event of the run reports `attempts = 4`, although the claim
(and the run's own `correction` output, emitted in the same trace) says
3: `attempt` is incremented once more after the final failure and the
payload adds 1 on top. -/
theorem c1_all_fail_reports_attempts_four :
    (runPipeline envAllFail).getLast? =
      some (Event.complete false "SELECT * FROM customers" [] 4) ∧
    Event.agentComplete Agent.correction
        ("Failed after 3 attempts. Final error: " ++
         "Catalog Error: Table with name t does not exist")
      ∈ runPipeline envAllFail := by
  constructor
  · rfl
  · decide

/-- Helper: `getLast?` of a list ending in an explicit singleton. -/
theorem getLast?_append_single {α : Type} (l : List α) (x : α) :
    (l ++ [x]).getLast? = some x := by
  induction l with
  | nil => rfl
  | cons a t ih =>
    rw [List.cons_append]
    cases h : t ++ [x] with
    | nil => exact absurd h (by simp)
    | cons b u => rw [List.getLast?_cons_cons, ← h, ih]

/-- Helper: a loop run (started not-yet-successful) that ends with the
success flag set contains a successful execution whose cleaned rows are
the recorded results. -/
theorem runLoop_ok_true (env : Env) :
    ∀ fuel a s r evs att res,
      runLoop env fuel a false s r = (evs, .ok (true, att, res)) →
      ∃ s2 rows, env.exec att s2 = .ok rows ∧ res = cleanResults rows := by
  intro fuel
  induction fuel with
  | zero => intro a s r evs att res h; simp [runLoop] at h
  | succ f ih =>
    intro a s r evs att res h
    by_cases hc : a < 3
    · rcases hx : env.exec a s with rows | msg
      · rw [runLoop_exec_ok env f a s r rows hc hx] at h
        simp only [Prod.mk.injEq, Except.ok.injEq] at h
        obtain ⟨-, -, hatt, hres⟩ := h
        exact ⟨s, rows, hatt ▸ hx, hres.symm⟩
      · by_cases h2 : a < 2
        · rcases hp : env.correctionPlanStage a with e | planOut
          · simp [runLoop, hc, hx, h2, hp] at h
          · rcases hq : env.correctionSQL a with e | corrected
            · simp [runLoop, hc, hx, h2, hp, hq] at h
            · rcases hrec : runLoop env f (a + 1) false
                (sqlWithSchemaRewrite corrected) r with ⟨evs2, res2⟩
              simp [runLoop, hc, hx, h2, hp, hq, hrec] at h
              obtain ⟨-, hres2⟩ := h
              exact ih (a + 1) (sqlWithSchemaRewrite corrected) r evs2 att res
                (by rw [hrec, hres2])
        · rcases hrec : runLoop env f (a + 1) false s r with ⟨evs2, res2⟩
          simp [runLoop, hc, hx, h2, hrec] at h
          obtain ⟨-, hres2⟩ := h
          exact ih (a + 1) s r evs2 att res (by rw [hrec, hres2])
    · simp [runLoop, hc] at h

/-- C3 counterexample: a run that succeeds on the first attempt emits a
`complete` event whose `sql` field is the original generated SQL, not the
schema-qualified query that was actually executed (the two strings
differ). -/
theorem c3_complete_carries_pregen_sql :
    (runPipeline envC3).getLast? =
      some (.complete true "SELECT * FROM customers"
        [[("CustomerId", JsValue.str "1")]] 1) ∧
    envC3.exec 0 (sqlWithSchemaRewrite "SELECT * FROM customers") =
      .ok [[("CustomerId", JsValue.bigint 1)]] ∧
    sqlWithSchemaRewrite "SELECT * FROM customers" ≠ "SELECT * FROM customers" := by
  refine ⟨by decide, by decide, by decide⟩

/-- C3 as amended: the terminal `complete` event of every run that reaches
it carries the pre-qualification generated SQL (`generatedSQL`, not
`sqlWithSchema`), the recorded result rows and `attempt + 1`; on success
the recorded rows are the cleaned rows of a successful execution. -/
theorem c3_amended_complete_payload (env : Env) (gen : String)
    (evs : List Event) (success : Bool) (attempt : Nat) (results : List Row)
    (hk : env.hasApiKey = true) (hq : env.hasQuestion = true)
    (h1 : env.schemaStage = .ok ()) (h2 : env.subproblemStage = .ok ())
    (h3 : env.queryplanStage = .ok ()) (h4 : env.sqlStage = .ok gen)
    (hloop : runLoop env 3 0 false (sqlWithSchemaRewrite gen) [] =
      (evs, .ok (success, attempt, results))) :
    (runPipeline env).getLast? =
      some (.complete success gen results (attempt + 1)) ∧
    (success = true →
      ∃ s2 rows, env.exec attempt s2 = .ok rows ∧ results = cleanResults rows) := by
  constructor
  · simp only [runPipeline, hk, hq, h1, h2, h3, h4, hloop]
    simp only [Bool.true_eq_false, or_self, if_false, ← List.cons_append,
      getLast?_append_single]
  · intro hs
    subst hs
    exact runLoop_ok_true env 3 0 _ [] evs attempt results hloop

/-- Witness for the amended C3 at a concrete successful run. -/
theorem c3_amended_witness :
    runLoop envC3 3 0 false (sqlWithSchemaRewrite "SELECT * FROM customers") [] =
      ([Event.agentStart .execute, Event.agentComplete .execute "1 rows returned"],
       .ok (true, 0, [[("CustomerId", JsValue.str "1")]])) ∧
    (runPipeline envC3).getLast? =
      some (.complete true "SELECT * FROM customers"
        [[("CustomerId", JsValue.str "1")]] 1) ∧
    (∃ s2 rows, envC3.exec 0 s2 = .ok rows ∧
      [[("CustomerId", JsValue.str "1")]] = cleanResults rows) := by
  have h := c3_amended_complete_payload envC3 "SELECT * FROM customers"
    [Event.agentStart .execute, Event.agentComplete .execute "1 rows returned"]
    true 0 [[("CustomerId", JsValue.str "1")]]
    rfl rfl rfl rfl rfl rfl rfl
  exact ⟨rfl, h.1, h.2 rfl⟩

/-- C4 counterexample: when the subproblem stage's response fails to
parse, the run terminates immediately with a fatal `error` event; no
query-plan, SQL, or execution stage runs afterwards, contradicting
"the stage's output is treated as an empty/default structure and later
stages proceed". -/
theorem c4_subproblem_parse_error_aborts_run :
    runPipeline envC4 =
      [Event.agentStart .schema, Event.agentComplete .schema "Tables: customers",
       Event.agentStart .subproblem, Event.error "Unexpected token o in JSON"] ∧
    Event.agentStart .queryplan ∉ runPipeline envC4 := by
  refine ⟨by decide, by decide⟩

/-- C4 as amended: a JSON parse failure in the subproblem, query-plan or
correction stage is an exception that propagates to the handler's outer
`try/catch`, which ends the run with a terminal `error` event; no later
stage runs with a default value (the run aborts instead). -/
theorem c4_amended_parse_error_terminal (env : Env) (e : String)
    (hk : env.hasApiKey = true) (hq : env.hasQuestion = true)
    (h1 : env.schemaStage = .ok ()) :
    (env.subproblemStage = .error e →
      runPipeline env =
        [Event.agentStart .schema, Event.agentComplete .schema env.schemaOutput,
         Event.agentStart .subproblem, Event.error e]) ∧
    (env.subproblemStage = .ok () → env.queryplanStage = .error e →
      runPipeline env =
        [Event.agentStart .schema, Event.agentComplete .schema env.schemaOutput,
         Event.agentStart .subproblem,
         Event.agentComplete .subproblem env.subproblemOutput,
         Event.agentStart .queryplan, Event.error e]) ∧
    (∀ gen msg, env.subproblemStage = .ok () → env.queryplanStage = .ok () →
      env.sqlStage = .ok gen →
      env.exec 0 (sqlWithSchemaRewrite gen) = .err msg →
      env.correctionPlanStage 0 = .error e →
      runPipeline env =
        [Event.agentStart .schema, Event.agentComplete .schema env.schemaOutput,
         Event.agentStart .subproblem,
         Event.agentComplete .subproblem env.subproblemOutput,
         Event.agentStart .queryplan,
         Event.agentComplete .queryplan env.queryplanOutput,
         Event.agentStart .sql,
         Event.agentComplete .sql (sqlWithSchemaRewrite gen),
         Event.agentStart .execute, Event.agentError .execute msg,
         Event.agentStart .correction, Event.error e]) := by
  refine ⟨?_, ?_, ?_⟩
  · intro hs
    simp [runPipeline, hk, hq, h1, hs]
  · intro hs hqp
    simp [runPipeline, hk, hq, h1, hs, hqp]
  · intro gen msg hs hqp hsql hx hcp
    simp [runPipeline, runLoop, hk, hq, h1, hs, hqp, hsql, hx, hcp]

/-- Witness for the amended C4 at a concrete environment whose subproblem
stage fails to parse. -/
theorem c4_amended_witness :
    envC4.subproblemStage = .error "Unexpected token o in JSON" ∧
    runPipeline envC4 =
      [Event.agentStart .schema, Event.agentComplete .schema "Tables: customers",
       Event.agentStart .subproblem, Event.error "Unexpected token o in JSON"] :=
  ⟨rfl,
    (c4_amended_parse_error_terminal envC4 "Unexpected token o in JSON"
      rfl rfl rfl).1 rfl⟩

/-- C8 (confirmed): loop-state invariants of the correction loop.
The run state holds exactly one live query string; a correction cycle
replaces it wholesale with the rewritten corrected SQL and increments the
attempt counter by exactly one; the success flag, once set, makes the
loop emit nothing further and terminate; reaching the attempt ceiling
terminates the loop. -/
theorem c8_loop_invariants (env : Env) :
    (∀ fuel a s r, runLoop env fuel a true s r = ([], .ok (true, a, r))) ∧
    (∀ f att s res msg planOut corrected,
      att < 2 →
      env.exec att s = .err msg →
      env.correctionPlanStage att = .ok planOut →
      env.correctionSQL att = .ok corrected →
      runLoop env (f + 1) att false s res =
        (Event.agentStart .execute :: Event.agentError .execute msg ::
         Event.agentStart .correction ::
         Event.agentComplete .correction
           ("Attempt " ++ toString (att + 2) ++ ": " ++ planOut ++
            " Error: " ++ msg) ::
         Event.agentUpdate .sql
           ("Corrected SQL (Attempt " ++ toString (att + 2) ++ "): " ++
            sqlWithSchemaRewrite corrected) ::
         (runLoop env f (att + 1) false (sqlWithSchemaRewrite corrected) res).1,
         (runLoop env f (att + 1) false (sqlWithSchemaRewrite corrected) res).2)) ∧
    (∀ f s res msg,
      env.exec 2 s = .err msg →
      runLoop env (f + 1) 2 false s res =
        (Event.agentStart .execute :: Event.agentError .execute msg ::
         Event.agentComplete .correction
           ("Failed after 3 attempts. Final error: " ++ msg) ::
         (runLoop env f 3 false s res).1,
         (runLoop env f 3 false s res).2)) ∧
    (∀ f s res, runLoop env f 3 false s res = ([], .ok (false, 3, res))) := by
  refine ⟨runLoop_success_state env, ?_, ?_, ?_⟩
  · intro f att s res msg planOut corrected h2 hx hp hq
    have h3 : att < 3 := by omega
    rcases hrec : runLoop env f (att + 1) false (sqlWithSchemaRewrite corrected) res
      with ⟨evs2, res2⟩
    simp [runLoop, h3, h2, hx, hp, hq, hrec]
  · intro f s res msg hx
    rcases hrec : runLoop env f 3 false s res with ⟨evs2, res2⟩
    simp [runLoop, hx, hrec]
  · intro f s res
    cases f <;> simp [runLoop]

/-- Witness for C8: an explicit correction cycle in the all-fail
environment. -/
theorem c8_witness :
    runLoop envAllFail 3 0 false "SELECT x FROM chinook.t" [] =
      (Event.agentStart .execute ::
       Event.agentError .execute
         "Catalog Error: Table with name t does not exist" ::
       Event.agentStart .correction ::
       Event.agentComplete .correction
         ("Attempt " ++ toString 2 ++ ": " ++ "schema_link.col_missing" ++
          " Error: " ++ "Catalog Error: Table with name t does not exist") ::
       Event.agentUpdate .sql
         ("Corrected SQL (Attempt " ++ toString 2 ++ "): " ++
          sqlWithSchemaRewrite "SELECT * FROM customers") ::
       (runLoop envAllFail 2 1 false
         (sqlWithSchemaRewrite "SELECT * FROM customers") []).1,
       (runLoop envAllFail 2 1 false
         (sqlWithSchemaRewrite "SELECT * FROM customers") []).2) :=
  (c8_loop_invariants envAllFail).2.1 2 0 "SELECT x FROM chinook.t" []
    "Catalog Error: Table with name t does not exist"
    "schema_link.col_missing" "SELECT * FROM customers"
    (by omega) rfl rfl rfl

/-- C9 (confirmed): after the client disconnects (the `close` handler has
set `responseEnded`), every `emit` and every `safeEnd` is a no-op that
throws nothing; `emit` never throws in any state; `safeEnd` is
idempotent (a second call changes nothing and calls `res.end` no further
time) and never throws. -/
theorem c9_emitter_safe_after_close :
    (∀ t st msg, emit t (onClose st) msg = .ok (onClose st)) ∧
    (∀ t st, safeEnd t (onClose st) = .ok (onClose st)) ∧
    (∀ t st msg, ∃ st1, emit t st msg = .ok st1) ∧
    (∀ t st, ∃ st1, safeEnd t st = .ok st1 ∧ safeEnd t st1 = .ok st1 ∧
      st1.endCalls ≤ st.endCalls + 1) := by
  refine ⟨?_, ?_, ?_, ?_⟩
  · intro t st msg; simp [emit, onClose]
  · intro t st; simp [safeEnd, onClose]
  · intro t st msg
    by_cases h : st.responseEnded
    · exact ⟨st, by simp [emit, h]⟩
    · by_cases hw : t.writeThrows
      · exact ⟨st, by simp [emit, h, resWrite, hw]⟩
      · exact ⟨{ st with written := st.written ++ [msg] },
          by simp [emit, h, resWrite, hw]⟩
  · intro t st
    by_cases h : st.responseEnded
    · exact ⟨st, by simp [safeEnd, h], by simp [safeEnd, h], by omega⟩
    · by_cases he : t.endThrows
      · refine ⟨{ st with responseEnded := true }, ?_, ?_, by simp⟩
        · simp [safeEnd, h, resEnd, he]
        · simp [safeEnd]
      · refine ⟨{ st with responseEnded := true, endCalls := st.endCalls + 1 },
          ?_, ?_, by simp⟩
        · simp [safeEnd, h, resEnd, he]
        · simp [safeEnd]

/-- Helper: decoding a digit character gives back the digit. -/
theorem charToDigit_digitChar (d : Nat) (h : d < 10) :
    charToDigit (digitChar d) = d := by
  interval_cases d <;> rfl

/-- Helper: digit characters land in the ASCII range 48-57. -/
theorem digitChar_range (d : Nat) (h : d < 10) :
    48 ≤ (digitChar d).toNat ∧ (digitChar d).toNat ≤ 57 := by
  interval_cases d <;> exact ⟨by decide, by decide⟩

/-- Helper: the fuel-indexed digit accumulator computes the reversed
base-10 digits. -/
theorem natDecAux_eq (fuel : Nat) :
    ∀ n acc, n ≤ fuel →
      natDecAux fuel n acc = ((Nat.digits 10 n).map digitChar).reverse ++ acc := by
  induction fuel with
  | zero =>
    intro n acc h
    interval_cases n
    simp [natDecAux]
  | succ f ih =>
    intro n acc h
    rcases n with - | m
    · simp [natDecAux]
    · have hdiv : (m + 1) / 10 < m + 1 := Nat.div_lt_self (Nat.succ_pos m) (by norm_num)
      rw [show natDecAux (f + 1) (m + 1) acc =
        natDecAux f ((m + 1) / 10) (digitChar ((m + 1) % 10) :: acc) from rfl]
      rw [ih ((m + 1) / 10) (digitChar ((m + 1) % 10) :: acc) (by omega)]
      rw [Nat.digits_def' (by norm_num : 1 < 10) (Nat.succ_pos m)]
      simp

/-- Helper: every character of a decimal representation is a digit. -/
theorem natDecRepr_mem_range (n : Nat) :
    ∀ c ∈ natDecRepr n, 48 ≤ c.toNat ∧ c.toNat ≤ 57 := by
  intro c hc
  by_cases h : n = 0
  · subst h
    simp [natDecRepr] at hc
    subst hc
    exact ⟨by decide, by decide⟩
  · rw [natDecRepr, if_neg h, natDecAux_eq n n [] le_rfl] at hc
    simp at hc
    obtain ⟨d, hd, hdc⟩ := hc
    have := Nat.digits_lt_base (by norm_num) hd
    exact hdc ▸ digitChar_range d this

/-- Helper: the decimal representation is never empty. -/
theorem natDecRepr_ne_nil (n : Nat) : natDecRepr n ≠ [] := by
  by_cases h : n = 0
  · subst h; simp [natDecRepr]
  · rw [natDecRepr, if_neg h, natDecAux_eq n n [] le_rfl]
    simp [Nat.digits_ne_nil_iff_ne_zero, h]

/-- Helper: decoding the decimal representation of a natural number. -/
theorem natDecRepr_decode (n : Nat) :
    (Nat.ofDigits 10 (((natDecRepr n).map charToDigit).reverse) : Nat) = n := by
  by_cases h : n = 0
  · subst h; simp [natDecRepr, charToDigit, Nat.ofDigits]
  · rw [natDecRepr, if_neg h, natDecAux_eq n n [] le_rfl]
    rw [List.append_nil, List.map_reverse, List.reverse_reverse, List.map_map]
    have : (Nat.digits 10 n).map (charToDigit ∘ digitChar) = Nat.digits 10 n := by
      apply List.map_congr_left ?_ |>.trans (List.map_id _)
      intro d hd
      exact charToDigit_digitChar d (Nat.digits_lt_base (by norm_num) hd)
    rw [this, Nat.ofDigits_digits]

/-- Helper: the decimal string of a 64-bit integer decodes back to the
original value — the conversion is lossless. -/
theorem decDecode_intDecRepr (n : Int) : decDecode (intDecRepr n) = n := by
  by_cases hn : n < 0
  · rw [intDecRepr, if_pos hn]
    unfold decDecode
    rw [if_pos]
    · rw [List.drop_one, List.tail_cons, natDecRepr_decode n.natAbs]
      omega
    · simp
  · rw [intDecRepr, if_neg hn, decDecode]
    have hne : (natDecRepr n.natAbs).head? ≠ some '-' := by
      cases h : natDecRepr n.natAbs with
      | nil => exact absurd h (natDecRepr_ne_nil _)
      | cons c t =>
        have := natDecRepr_mem_range n.natAbs c (h ▸ List.mem_cons_self c t)
        simp only [List.head?_cons, ne_eq, Option.some.injEq]
        intro hc
        rw [hc] at this
        revert this
        decide
    rw [if_neg hne, natDecRepr_decode n.natAbs]
    omega

/-- C5 counterexample: the SQL Executor tool performs no
bigint-to-string conversion: a 64-bit integer value exceeding 2 to the
53rd power leaves `executeSQL` as a raw bigint, not as a decimal
string. -/
theorem c5_executor_returns_bigint_unconverted :
    (executeSQL "SELECT SUM(Total) AS Total FROM invoices" envBig).1.result =
      some [[("Total", JsValue.bigint (2 ^ 60))]] ∧
    ((2 ^ 60 : Int) > 2 ^ 53) ∧
    JsValue.bigint (2 ^ 60) ≠ JsValue.str "1152921504606846976" := by
  refine ⟨by decide, by decide, by decide⟩

/-- C5 as amended: the conversion lives in the callers, not the executor:
the server pipeline's result cleaning maps every bigint value to its
decimal string before the `complete` event (and leaves no bigint behind),
and the conversion round-trips losslessly for every integer, including
values exceeding 2 to the 53rd power. -/
theorem c5_amended_server_converts_bigint :
    (∀ (row : Row) (k : String) (n : Int), (k, JsValue.bigint n) ∈ row →
      (k, JsValue.str ⟨intDecRepr n⟩) ∈ cleanRow row) ∧
    (∀ (row : Row) (p : String × JsValue), p ∈ cleanRow row →
      ∀ n : Int, p.2 ≠ JsValue.bigint n) ∧
    (∀ n : Int, decDecode (intDecRepr n) = n) ∧
    (∀ (env : Env) (fuel a : Nat) (s : String) (r rows : List Row),
      a < 3 → env.exec a s = .ok rows →
      (runLoop env (fuel + 1) a false s r).2 = .ok (true, a, cleanResults rows)) := by
  refine ⟨?_, ?_, decDecode_intDecRepr, ?_⟩
  · intro row k n h
    have := List.mem_map_of_mem (fun p => (p.1, cleanValue p.2)) h
    simpa [cleanRow, cleanValue] using this
  · intro row p hp n
    rcases List.mem_map.mp hp with ⟨q, hq, rfl⟩
    cases h2 : q.2 <;> simp [cleanValue, h2]
  · intro env fuel a s r rows ha hx
    rw [runLoop_exec_ok env fuel a s r rows ha hx]

/-- Witness for the amended C5 at a concrete bigint value above 2^53. -/
theorem c5_amended_witness :
    ("Total", JsValue.str ⟨intDecRepr (2 ^ 60)⟩) ∈
      cleanRow [("Total", JsValue.bigint (2 ^ 60))] ∧
    decDecode (intDecRepr (2 ^ 60)) = 2 ^ 60 ∧
    (runLoop envC6 1 0 false "q" []).2 =
      .ok (true, 0, cleanResults [[("Name", JsValue.str "Bob")]]) :=
  ⟨c5_amended_server_converts_bigint.1 [("Total", JsValue.bigint (2 ^ 60))]
      "Total" (2 ^ 60) (by decide),
   c5_amended_server_converts_bigint.2.2.1 (2 ^ 60),
   c5_amended_server_converts_bigint.2.2.2 envC6 0 0 "q" []
     [[("Name", JsValue.str "Bob")]] (by omega) rfl⟩

/-- C10 counterexample: the input `"/* -- */"` consists solely of an SQL
comment, yet `executeSQL` does not resolve with the
`'Empty SQL query after cleaning'` error: the line-comment pass eats the
closing `*/` first, leaving `"/*"`, which is sent to the database after
attaching. -/
theorem c10_comment_only_still_queries :
    cleanSQL "/* -- */" = "/*" ∧
    (executeSQL "/* -- */" envDb).1.error =
      some "Parser Error: syntax error at end of input" ∧
    (executeSQL "/* -- */" envDb).2 =
      [DbCall.install, DbCall.attach, DbCall.query "/*"] := by
  refine ⟨by decide, by decide, by decide⟩

/-- C10 as amended: whenever the cleaned SQL is empty (in particular for
empty input, whitespace, line comments, and block comments whose body
contains no `--`), `executeSQL` resolves with success `false` and error
`'Empty SQL query after cleaning'` without issuing any database call;
moreover `executeSQL` always resolves with a well-formed result (rows on
success, an error string on failure) and never rejects. -/
theorem c10_amended_empty_clean (s : String) (env : DbEnv)
    (h : cleanSQL s = "") :
    executeSQL s env =
      ({ success := false, error := some "Empty SQL query after cleaning" }, []) ∧
    (∀ (s2 : String) (env2 : DbEnv),
      ((executeSQL s2 env2).1.success = true →
        ((executeSQL s2 env2).1.result).isSome = true) ∧
      ((executeSQL s2 env2).1.success = false →
        ((executeSQL s2 env2).1.error).isSome = true)) := by
  constructor
  · simp [executeSQL, h]
  · intro s2 env2
    unfold executeSQL
    by_cases h2 : cleanSQL s2 = ""
    · simp [h2]
    · rcases h3 : env2.installRes with m | u
      · simp [h2, h3]
      · rcases h4 : env2.attachRes with m2 | u2
        · simp [h2, h3, h4]
        · rcases h5 : env2.runRes (toolRewrite (cleanSQL s2)) with m3 | rows
          · simp [h2, h3, h4, h5]
          · simp [h2, h3, h4, h5]

/-- Witness for the amended C10 at a concrete comment-and-whitespace
input. -/
theorem c10_amended_witness :
    cleanSQL "  -- a comment\n  " = "" ∧
    executeSQL "  -- a comment\n  " envDb =
      ({ success := false, error := some "Empty SQL query after cleaning" }, []) :=
  ⟨by decide, (c10_amended_empty_clean "  -- a comment\n  " envDb (by decide)).1⟩


theorem toNat_ofNat_lt (n : Nat) (h : n < 55296) : (Char.ofNat n).toNat = n := by
  unfold Char.ofNat
  split
  · rfl
  · rename_i hv
    exact absurd (Or.inl (by omega)) hv

theorem lc_toNat (c : Char) :
    (lc c).toNat = if 65 ≤ c.toNat ∧ c.toNat ≤ 90 then c.toNat + 32 else c.toNat := by
  unfold lc
  split
  · rename_i h
    exact toNat_ofNat_lt _ (by omega)
  · rfl

theorem char_eq_iff (a b : Char) : a = b ↔ a.toNat = b.toNat := by
  constructor
  · intro h; rw [h]
  · intro h
    exact Char.ext (UInt32.ext h)

theorem isWordChar_lc (c : Char) : isWordChar (lc c) = isWordChar c := by
  have h95 : ('_').toNat = 95 := rfl
  rw [Bool.eq_iff_iff]
  simp only [isWordChar, Bool.or_eq_true, Bool.and_eq_true, decide_eq_true_eq,
    char_eq_iff, lc_toNat, h95]
  by_cases h : 65 ≤ c.toNat ∧ c.toNat ≤ 90
  · rw [if_pos h]
    constructor
    · intro hh; omega
    · intro hh; omega
  · rw [if_neg h]

theorem isSpaceChar_lc (c : Char) : isSpaceChar (lc c) = isSpaceChar c := by
  rw [Bool.eq_iff_iff]
  simp only [isSpaceChar, Bool.or_eq_true, decide_eq_true_eq, lc_toNat]
  by_cases h : 65 ≤ c.toNat ∧ c.toNat ≤ 90
  · rw [if_pos h]
    constructor
    · intro hh; omega
    · intro hh; omega
  · rw [if_neg h]

theorem word_not_space (c : Char) (h : isWordChar c = true) :
    isSpaceChar c = false := by
  have h95 : ('_').toNat = 95 := rfl
  simp only [isWordChar, Bool.or_eq_true, Bool.and_eq_true, decide_eq_true_eq,
    char_eq_iff, h95] at h
  simp only [isSpaceChar, Bool.or_eq_false_iff, decide_eq_false_iff_not]
  omega

theorem isWordChar_of_lc_eq {a b : Char} (h : lc a = lc b) :
    isWordChar a = isWordChar b := by
  rw [← isWordChar_lc a, ← isWordChar_lc b, h]

theorem isSpaceChar_of_lc_eq {a b : Char} (h : lc a = lc b) :
    isSpaceChar a = isSpaceChar b := by
  rw [← isSpaceChar_lc a, ← isSpaceChar_lc b, h]


theorem dropWhile_length_le (p : Char → Bool) :
    ∀ l : List Char, (l.dropWhile p).length ≤ l.length := by
  intro l
  induction l with
  | nil => simp
  | cons c t ih =>
    rw [List.dropWhile_cons]
    split
    · exact Nat.le_succ_of_le ih
    · simp

theorem dropWhile_head_false (p : Char → Bool) :
    ∀ (l : List Char) c w, l.dropWhile p = c :: w → p c = false := by
  intro l
  induction l with
  | nil => intro c w h; simp at h
  | cons d t ih =>
    intro c w h
    rw [List.dropWhile_cons] at h
    split at h
    · exact ih c w h
    · rename_i hd
      obtain ⟨rfl, -⟩ := List.cons.inj h
      simpa using hd

theorem ciPre_length : ∀ p l : List Char, ciPre p l = true → p.length ≤ l.length := by
  intro p
  induction p with
  | nil => intro l _; simp
  | cons x ps ih =>
    intro l h
    cases l with
    | nil => simp [ciPre] at h
    | cons c cs =>
      simp only [ciPre, Bool.and_eq_true] at h
      simpa using ih cs h.2

theorem ciPre_refl_append : ∀ l m : List Char, ciPre l (l ++ m) = true := by
  intro l m
  induction l with
  | nil => rfl
  | cons x xs ih => simp [ciPre, ih]

theorem ciPre_append_left : ∀ (p a b : List Char), p.length ≤ a.length →
    ciPre p (a ++ b) = ciPre p a := by
  intro p
  induction p with
  | nil => intro a b _; rfl
  | cons x ps ih =>
    intro a b h
    cases a with
    | nil => simp at h
    | cons c cs =>
      simp only [List.cons_append, ciPre, List.append_eq]
      rw [ih cs b (by simpa using h)]

theorem ciPre_append_split : ∀ (a p b : List Char), a.length ≤ p.length →
    (ciPre p (a ++ b) = true ↔
      ciEq (p.take a.length) a = true ∧ ciPre (p.drop a.length) b = true) := by
  intro a
  induction a with
  | nil => intro p b _; simp [ciEq]
  | cons c cs ih =>
    intro p b h
    cases p with
    | nil => simp at h
    | cons x ps =>
      simp only [List.cons_append, ciPre, List.length_cons, List.take_succ_cons,
        List.drop_succ_cons, ciEq, Bool.and_eq_true, List.append_eq]
      rw [ih ps b (by simpa using h)]
      tauto

theorem ciEq_length : ∀ a b : List Char, ciEq a b = true → a.length = b.length := by
  intro a
  induction a with
  | nil => intro b h; cases b with
    | nil => rfl
    | cons x xs => simp [ciEq] at h
  | cons c cs ih =>
    intro b h
    cases b with
    | nil => simp [ciEq] at h
    | cons x xs =>
      simp only [ciEq, Bool.and_eq_true] at h
      simpa using ih xs h.2

theorem ciEq_of_ciPre : ∀ p l : List Char, ciPre p l = true → l.length = p.length →
    ciEq l p = true := by
  intro p
  induction p with
  | nil => intro l _ hl; cases l with
    | nil => rfl
    | cons c cs => simp at hl
  | cons x ps ih =>
    intro l h hl
    cases l with
    | nil => simp at hl
    | cons c cs =>
      simp only [ciPre, Bool.and_eq_true] at h
      simp only [ciEq, Bool.and_eq_true]
      exact ⟨decide_eq_true (of_decide_eq_true h.1).symm,
        ih cs h.2 (by simpa using hl)⟩

theorem suffix_append_cases {u a b : List Char} (h : u <:+ a ++ b) :
    u <:+ b ∨ ∃ x, x <:+ a ∧ x ≠ [] ∧ u = x ++ b := by
  induction a with
  | nil => exact Or.inl (by simpa using h)
  | cons c cs ih =>
    rw [List.cons_append, List.suffix_cons_iff] at h
    rcases h with rfl | h
    · exact Or.inr ⟨c :: cs, List.suffix_refl _, by simp, by simp⟩
    · rcases ih h with h | ⟨x, hx, hne, rfl⟩
      · exact Or.inl h
      · exact Or.inr ⟨x, hx.trans (List.suffix_cons c cs), hne, rfl⟩

theorem exists_cons_of_proper_suffix {w i : List Char} (h : w <:+ i) (hne : w ≠ i) :
    ∃ c, (c :: w) <:+ i := by
  induction i with
  | nil =>
    rw [List.suffix_nil] at h
    exact absurd h hne
  | cons x xs ih =>
    rw [List.suffix_cons_iff] at h
    rcases h with rfl | h
    · exact absurd rfl hne
    · by_cases hw : w = xs
      · subst hw
        exact ⟨x, List.suffix_refl _⟩
      · obtain ⟨c, hc⟩ := ih h hw
        exact ⟨c, hc.trans (List.suffix_cons x xs)⟩


theorem matchKw_some_facts {kw l : List Char} {i r : List Char}
    (h : matchKw kw l = some (i, r)) :
    ciPre kw l = true ∧
    l.drop 4 = (l.drop 4).takeWhile isSpaceChar ++ i ++ r ∧
    (l.drop 4).takeWhile isSpaceChar ≠ [] ∧
    i = ((l.drop 4).dropWhile isSpaceChar).takeWhile isWordChar ∧
    r = ((l.drop 4).dropWhile isSpaceChar).dropWhile isWordChar ∧
    i ≠ [] ∧
    ciPre chinookDot (i ++ r) = false := by
  unfold matchKw at h
  by_cases h1 : ciPre kw l = true
  · rw [if_pos h1] at h
    simp only at h
    by_cases h2 : (l.drop 4).takeWhile isSpaceChar = []
    · rw [if_pos h2] at h; simp at h
    · rw [if_neg h2] at h
      by_cases h3 : ciPre chinookDot ((l.drop 4).dropWhile isSpaceChar) = true
      · rw [if_pos h3] at h; simp at h
      · rw [if_neg h3] at h
        by_cases h4 : ((l.drop 4).dropWhile isSpaceChar).takeWhile isWordChar = []
        · rw [if_pos h4] at h; simp at h
        · rw [if_neg h4] at h
          simp only [Option.some.injEq, Prod.mk.injEq] at h
          obtain ⟨rfl, rfl⟩ := h
          refine ⟨h1, ?_, h2, rfl, rfl, h4, ?_⟩
          · rw [List.append_assoc, List.takeWhile_append_dropWhile,
              List.takeWhile_append_dropWhile]
          · rw [List.takeWhile_append_dropWhile]
            exact eq_false_of_ne_true h3
  · rw [if_neg h1] at h; simp at h

theorem matchKw_rest_lt {kw : List Char} {c : Char} {t i r : List Char}
    (h : matchKw kw (c :: t) = some (i, r)) : r.length < (c :: t).length := by
  obtain ⟨-, -, -, -, hr, -, -⟩ := matchKw_some_facts h
  have h1 : r.length ≤ (((c :: t).drop 4).dropWhile isSpaceChar).length := by
    rw [hr]; exact dropWhile_length_le _ _
  have h2 : (((c :: t).drop 4).dropWhile isSpaceChar).length ≤
      ((c :: t).drop 4).length := dropWhile_length_le _ _
  have h3 : ((c :: t).drop 4).length = (c :: t).length - 4 := by simp
  simp only [List.length_cons] at h3 ⊢
  omega

theorem collapseGo_fuel : ∀ (n : Nat) (l : List Char) (f g : Nat),
    l.length = n → n ≤ f → n ≤ g → collapseGo f l = collapseGo g l := by
  intro n
  induction n using Nat.strong_induction_on with
  | _ n ih =>
    intro l f g hn hf hg
    cases l with
    | nil =>
      cases f <;> cases g <;> rfl
    | cons c t =>
      subst hn
      rcases f with - | f
      · simp at hf
      · rcases g with - | g
        · simp at hg
        · show collapseGo (f + 1) (c :: t) = collapseGo (g + 1) (c :: t)
          have stepf : collapseGo (f + 1) (c :: t) =
              (if ciPre doublePat (c :: t) then
                chinookDot ++ collapseGo f ((c :: t).drop 16)
              else c :: collapseGo f t) := rfl
          have stepg : collapseGo (g + 1) (c :: t) =
              (if ciPre doublePat (c :: t) then
                chinookDot ++ collapseGo g ((c :: t).drop 16)
              else c :: collapseGo g t) := rfl
          rw [stepf, stepg]
          by_cases hm : ciPre doublePat (c :: t) = true
          · rw [if_pos hm, if_pos hm]
            have hlen : 16 ≤ (c :: t).length := by
              have := ciPre_length doublePat (c :: t) hm
              simpa [doublePat] using this
            rw [ih ((c :: t).length - 16) (by simp only [List.length_cons] at hlen ⊢; omega)
              ((c :: t).drop 16) f g (by simp) (by simp only [List.length_cons] at hf hlen ⊢; omega)
              (by simp only [List.length_cons] at hg hlen ⊢; omega)]
          · rw [if_neg hm, if_neg hm]
            rw [ih t.length (by simp) t f g rfl
              (by simp only [List.length_cons] at hf; omega)
              (by simp only [List.length_cons] at hg; omega)]

theorem collapse_cons_pos {c : Char} {t : List Char}
    (h : ciPre doublePat (c :: t) = true) :
    collapse (c :: t) = chinookDot ++ collapse ((c :: t).drop 16) := by
  have step : collapse (c :: t) =
      (if ciPre doublePat (c :: t) then
        chinookDot ++ collapseGo t.length ((c :: t).drop 16)
      else c :: collapseGo t.length t) := rfl
  rw [step, if_pos h]
  have hlen : 16 ≤ (c :: t).length := by
    have := ciPre_length doublePat (c :: t) h
    simpa [doublePat] using this
  rw [collapseGo_fuel ((c :: t).drop 16).length ((c :: t).drop 16) t.length
    ((c :: t).drop 16).length rfl
    (by simp only [List.length_drop, List.length_cons] at *; omega) le_rfl]
  rfl

theorem collapse_cons_neg {c : Char} {t : List Char}
    (h : ciPre doublePat (c :: t) = false) :
    collapse (c :: t) = c :: collapse t := by
  have step : collapse (c :: t) =
      (if ciPre doublePat (c :: t) then
        chinookDot ++ collapseGo t.length ((c :: t).drop 16)
      else c :: collapseGo t.length t) := rfl
  rw [step, if_neg (by rw [h]; exact Bool.false_ne_true)]
  rfl

theorem collapse_nil : collapse [] = [] := rfl

theorem qualGo_fuel (kw kwUp : List Char) : ∀ (n : Nat) (l : List Char) (f g : Nat),
    l.length = n → n ≤ f → n ≤ g → qualGo kw kwUp f l = qualGo kw kwUp g l := by
  intro n
  induction n using Nat.strong_induction_on with
  | _ n ih =>
    intro l f g hn hf hg
    cases l with
    | nil =>
      cases f <;> cases g <;> rfl
    | cons c t =>
      subst hn
      rcases f with - | f
      · simp at hf
      · rcases g with - | g
        · simp at hg
        · have stepf : qualGo kw kwUp (f + 1) (c :: t) =
              (match matchKw kw (c :: t) with
               | some (ident, rest) =>
                   kwUp ++ (' ' :: chinookDot) ++ ident ++ qualGo kw kwUp f rest
               | none => c :: qualGo kw kwUp f t) := rfl
          have stepg : qualGo kw kwUp (g + 1) (c :: t) =
              (match matchKw kw (c :: t) with
               | some (ident, rest) =>
                   kwUp ++ (' ' :: chinookDot) ++ ident ++ qualGo kw kwUp g rest
               | none => c :: qualGo kw kwUp g t) := rfl
          rw [stepf, stepg]
          rcases hm : matchKw kw (c :: t) with - | ⟨i, r⟩
          · simp only
            rw [ih t.length (by simp) t f g rfl
              (by simp only [List.length_cons] at hf; omega)
              (by simp only [List.length_cons] at hg; omega)]
          · simp only
            have hlt := matchKw_rest_lt hm
            rw [ih r.length (by simp only [List.length_cons] at hlt ⊢; omega) r f g rfl
              (by simp only [List.length_cons] at hf hlt; omega)
              (by simp only [List.length_cons] at hg hlt; omega)]

theorem qualify_nil (kw kwUp : List Char) : qualify kw kwUp [] = [] := rfl

theorem qualify_cons_some {kw kwUp : List Char} {c : Char} {t i r : List Char}
    (h : matchKw kw (c :: t) = some (i, r)) :
    qualify kw kwUp (c :: t) =
      kwUp ++ (' ' :: chinookDot) ++ i ++ qualify kw kwUp r := by
  have step : qualify kw kwUp (c :: t) =
      (match matchKw kw (c :: t) with
       | some (ident, rest) =>
           kwUp ++ (' ' :: chinookDot) ++ ident ++ qualGo kw kwUp t.length rest
       | none => c :: qualGo kw kwUp t.length t) := rfl
  rw [step, h]
  dsimp only
  have hlt := matchKw_rest_lt h
  rw [qualGo_fuel kw kwUp r.length r t.length r.length rfl
    (by simp only [List.length_cons] at hlt; omega) le_rfl]
  rfl

theorem qualify_cons_none {kw kwUp : List Char} {c : Char} {t : List Char}
    (h : matchKw kw (c :: t) = none) :
    qualify kw kwUp (c :: t) = c :: qualify kw kwUp t := by
  have step : qualify kw kwUp (c :: t) =
      (match matchKw kw (c :: t) with
       | some (ident, rest) =>
           kwUp ++ (' ' :: chinookDot) ++ ident ++ qualGo kw kwUp t.length rest
       | none => c :: qualGo kw kwUp t.length t) := rfl
  rw [step, h]
  dsimp only
  rfl


theorem collapse_id_of_noDbl : ∀ l : List Char,
    (∀ u, u <:+ l → ciPre doublePat u = false) → collapse l = l := by
  intro l
  induction l with
  | nil => intro _; rfl
  | cons c t ih =>
    intro h
    rw [collapse_cons_neg (h (c :: t) (List.suffix_refl _))]
    rw [ih (fun u hu => h u (hu.trans (List.suffix_cons c t)))]

theorem matchKw_none_of_not_ciPre {kw l : List Char} (h : ciPre kw l = false) :
    matchKw kw l = none := by
  unfold matchKw
  rw [if_neg (by rw [h]; exact Bool.false_ne_true)]

theorem qualify_id_of_noMatch (kw kwUp : List Char) : ∀ l : List Char,
    (∀ u, u <:+ l → matchKw kw u = none) → qualify kw kwUp l = l := by
  intro l
  induction l with
  | nil => intro _; rfl
  | cons c t ih =>
    intro h
    rw [qualify_cons_none (h (c :: t) (List.suffix_refl _))]
    rw [ih (fun u hu => h u (hu.trans (List.suffix_cons c t)))]

theorem lc_f : lc 'f' = 'f' := by decide
theorem lc_j : lc 'j' = 'j' := by decide
theorem lc_F : lc 'F' = 'f' := by decide
theorem lc_J : lc 'J' = 'j' := by decide

theorem matchKw_none_of_head {kw : List Char} (c : Char) (l : List Char)
    (hk : kw = fromKw ∨ kw = joinKw) (hc : lc c ≠ 'f' ∧ lc c ≠ 'j') :
    matchKw kw (c :: l) = none := by
  apply matchKw_none_of_not_ciPre
  rcases hk with rfl | rfl
  · show (decide (lc 'f' = lc c) && ciPre ['r', 'o', 'm'] l) = false
    have : lc 'f' ≠ lc c := by rw [lc_f]; exact fun hh => hc.1 hh.symm
    simp [this]
  · show (decide (lc 'j' = lc c) && ciPre ['o', 'i', 'n'] l) = false
    have : lc 'j' ≠ lc c := by rw [lc_j]; exact fun hh => hc.2 hh.symm
    simp [this]

theorem ciPre_head_of_matchKw {kw : List Char} {c : Char} {t i r : List Char}
    (hk : kw = fromKw ∨ kw = joinKw)
    (h : matchKw kw (c :: t) = some (i, r)) :
    lc c = 'f' ∨ lc c = 'j' := by
  obtain ⟨h1, -⟩ := matchKw_some_facts h
  rcases hk with rfl | rfl
  · left
    have : (decide (lc 'f' = lc c) && ciPre ['r', 'o', 'm'] t) = true := h1
    simp only [Bool.and_eq_true, decide_eq_true_eq] at this
    rw [← this.1, lc_f]
  · right
    have : (decide (lc 'j' = lc c) && ciPre ['o', 'i', 'n'] t) = true := h1
    simp only [Bool.and_eq_true, decide_eq_true_eq] at this
    rw [← this.1, lc_j]

theorem ciPre_qualify (kwS kwSUp : List Char)
    (hS : (kwS = fromKw ∧ kwSUp = fromUp) ∨ (kwS = joinKw ∧ kwSUp = joinUp)) :
    ∀ (n : Nat) (u p : List Char), u.length = n →
    (∀ x ∈ p, lc x ≠ 'f' ∧ lc x ≠ 'j') →
    ciPre p (qualify kwS kwSUp u) = ciPre p u := by
  intro n
  induction n using Nat.strong_induction_on with
  | _ n ih =>
    intro u p hn hp
    cases u with
    | nil => rfl
    | cons c t =>
      subst hn
      cases p with
      | nil => rfl
      | cons x ps =>
        rcases hm : matchKw kwS (c :: t) with - | ⟨i, r⟩
        · rw [qualify_cons_none hm]
          show (decide (lc x = lc c) && ciPre ps (qualify kwS kwSUp t)) =
            (decide (lc x = lc c) && ciPre ps t)
          rw [ih t.length (by simp) t ps rfl
            (fun y hy => hp y (List.mem_cons_of_mem x hy))]
        · rw [qualify_cons_some hm]
          have hc := ciPre_head_of_matchKw
            (hS.imp (fun a => a.1) (fun a => a.1)) hm
          have hx := hp x (List.mem_cons_self x ps)
          have hrhs : ciPre (x :: ps) (c :: t) = false := by
            show (decide (lc x = lc c) && ciPre ps t) = false
            have : lc x ≠ lc c := by
              rcases hc with hc | hc <;> rw [hc]
              · exact hx.1
              · exact hx.2
            simp [this]
          rw [hrhs]
          rcases hS with ⟨rfl, rfl⟩ | ⟨rfl, rfl⟩
          · show (decide (lc x = lc 'F') && _) = false
            have : lc x ≠ lc 'F' := by rw [lc_F]; exact hx.1
            simp [this]
          · show (decide (lc x = lc 'J') && _) = false
            have : lc x ≠ lc 'J' := by rw [lc_J]; exact hx.2
            simp [this]

theorem qualify_copy_prefix (kwS kwSUp : List Char)
    (hS : (kwS = fromKw ∧ kwSUp = fromUp) ∨ (kwS = joinKw ∧ kwSUp = joinUp)) :
    ∀ (p u : List Char),
    (∀ x ∈ p, lc x ≠ 'f' ∧ lc x ≠ 'j') → ciPre p u = true →
    qualify kwS kwSUp u = u.take p.length ++ qualify kwS kwSUp (u.drop p.length) := by
  intro p
  induction p with
  | nil => intro u _ _; simp
  | cons x ps ih =>
    intro u hp hpre
    cases u with
    | nil => simp [ciPre] at hpre
    | cons c t =>
      have hx := hp x (List.mem_cons_self x ps)
      simp only [ciPre, Bool.and_eq_true, decide_eq_true_eq] at hpre
      have hcnone : matchKw kwS (c :: t) = none := by
        apply matchKw_none_of_head c t (hS.imp (fun a => a.1) (fun a => a.1))
        rw [← hpre.1]
        exact hx
      rw [qualify_cons_none hcnone]
      rw [ih t (fun y hy => hp y (List.mem_cons_of_mem x hy)) hpre.2]
      simp


theorem space_not_fj {x : Char} (h : isSpaceChar x = true) :
    lc x ≠ 'f' ∧ lc x ≠ 'j' := by
  constructor
  · intro hx
    have h1 : isSpaceChar (lc x) = isSpaceChar x := isSpaceChar_lc x
    rw [hx, h] at h1
    exact absurd h1 (by decide)
  · intro hx
    have h1 : isSpaceChar (lc x) = isSpaceChar x := isSpaceChar_lc x
    rw [hx, h] at h1
    exact absurd h1 (by decide)

theorem nonword_not_fj {x : Char} (h : isWordChar x = false) :
    lc x ≠ 'f' ∧ lc x ≠ 'j' := by
  constructor
  · intro hx
    have h1 : isWordChar (lc x) = isWordChar x := isWordChar_lc x
    rw [hx, h] at h1
    exact absurd h1 (by decide)
  · intro hx
    have h1 : isWordChar (lc x) = isWordChar x := isWordChar_lc x
    rw [hx, h] at h1
    exact absurd h1 (by decide)

theorem dropWhile_append_all {p : Char → Bool} {a : List Char} (b : List Char)
    (h : ∀ x ∈ a, p x = true) :
    (a ++ b).dropWhile p = b.dropWhile p := by
  induction a with
  | nil => rfl
  | cons x xs ih =>
    rw [List.cons_append, List.dropWhile_cons,
      if_pos (h x (List.mem_cons_self x xs))]
    exact ih (fun y hy => h y (List.mem_cons_of_mem x hy))

theorem matchKw_none_inner {kw l : List Char}
    (h : ((l.drop 4).takeWhile isSpaceChar = []) ∨
         (ciPre chinookDot ((l.drop 4).dropWhile isSpaceChar) = true) ∨
         (((l.drop 4).dropWhile isSpaceChar).takeWhile isWordChar = [])) :
    matchKw kw l = none := by
  unfold matchKw
  by_cases h1 : ciPre kw l = true
  · rw [if_pos h1]
    simp only
    by_cases h2 : (l.drop 4).takeWhile isSpaceChar = []
    · rw [if_pos h2]
    · rw [if_neg h2]
      by_cases h3 : ciPre chinookDot ((l.drop 4).dropWhile isSpaceChar) = true
      · rw [if_pos h3]
      · rw [if_neg h3]
        by_cases h4 : ((l.drop 4).dropWhile isSpaceChar).takeWhile isWordChar = []
        · rw [if_pos h4]
        · exact absurd h (by simp [h2, h3, h4])
  · rw [if_neg h1]

theorem matchKw_none_cases {kw l : List Char} (hpre : ciPre kw l = true)
    (h : matchKw kw l = none) :
    ((l.drop 4).takeWhile isSpaceChar = []) ∨
    (ciPre chinookDot ((l.drop 4).dropWhile isSpaceChar) = true) ∨
    (((l.drop 4).dropWhile isSpaceChar).takeWhile isWordChar = []) := by
  unfold matchKw at h
  rw [if_pos hpre] at h
  simp only at h
  by_cases h2 : (l.drop 4).takeWhile isSpaceChar = []
  · exact Or.inl h2
  · rw [if_neg h2] at h
    by_cases h3 : ciPre chinookDot ((l.drop 4).dropWhile isSpaceChar) = true
    · exact Or.inr (Or.inl h3)
    · rw [if_neg h3] at h
      by_cases h4 : ((l.drop 4).dropWhile isSpaceChar).takeWhile isWordChar = []
      · exact Or.inr (Or.inr h4)
      · rw [if_neg h4] at h
        simp at h

theorem qual_ws_empty (kwS kwSUp : List Char)
    (hS : (kwS = fromKw ∧ kwSUp = fromUp) ∨ (kwS = joinKw ∧ kwSUp = joinUp))
    (v : List Char) (h : v.takeWhile isSpaceChar = []) :
    (qualify kwS kwSUp v).takeWhile isSpaceChar = [] := by
  cases v with
  | nil => rfl
  | cons d v' =>
    rw [List.takeWhile_cons] at h
    have hd : isSpaceChar d = false := by
      by_cases hd : isSpaceChar d = true
      · rw [if_pos hd] at h; simp at h
      · exact eq_false_of_ne_true hd
    rcases hm : matchKw kwS (d :: v') with - | ⟨i, r⟩
    · rw [qualify_cons_none hm, List.takeWhile_cons, if_neg (by rw [hd]; simp)]
    · rw [qualify_cons_some hm]
      rcases hS with ⟨rfl, rfl⟩ | ⟨rfl, rfl⟩
      · rw [show fromUp ++ (' ' :: chinookDot) ++ i ++ qualify fromKw fromUp r =
          'F' :: (['R', 'O', 'M'] ++ (' ' :: chinookDot) ++ i ++
            qualify fromKw fromUp r) from rfl]
        rw [List.takeWhile_cons, if_neg (by decide)]
      · rw [show joinUp ++ (' ' :: chinookDot) ++ i ++ qualify joinKw joinUp r =
          'J' :: (['O', 'I', 'N'] ++ (' ' :: chinookDot) ++ i ++
            qualify joinKw joinUp r) from rfl]
        rw [List.takeWhile_cons, if_neg (by decide)]

theorem qual_spaces (kwS kwSUp : List Char)
    (hS : (kwS = fromKw ∧ kwSUp = fromUp) ∨ (kwS = joinKw ∧ kwSUp = joinUp)) :
    ∀ v : List Char, qualify kwS kwSUp v =
      v.takeWhile isSpaceChar ++ qualify kwS kwSUp (v.dropWhile isSpaceChar) := by
  intro v
  induction v with
  | nil => rfl
  | cons d v' ih =>
    by_cases hd : isSpaceChar d = true
    · have hnone : matchKw kwS (d :: v') = none := by
        apply matchKw_none_of_head d v' (hS.imp (fun a => a.1) (fun a => a.1))
        exact space_not_fj hd
      rw [qualify_cons_none hnone, List.takeWhile_cons, if_pos hd,
        List.dropWhile_cons, if_pos hd, List.cons_append, ih]
    · have hd' : isSpaceChar d = false := eq_false_of_ne_true hd
      rw [List.takeWhile_cons, if_neg (by rw [hd']; simp),
        List.dropWhile_cons, if_neg (by rw [hd']; simp)]
      rfl

theorem dropWhile_space_qual (kwS kwSUp : List Char)
    (hS : (kwS = fromKw ∧ kwSUp = fromUp) ∨ (kwS = joinKw ∧ kwSUp = joinUp))
    (v : List Char) :
    (qualify kwS kwSUp v).dropWhile isSpaceChar =
      qualify kwS kwSUp (v.dropWhile isSpaceChar) := by
  rw [qual_spaces kwS kwSUp hS v]
  rw [dropWhile_append_all _ (fun x hx => List.mem_takeWhile_imp hx)]
  rcases hv : v.dropWhile isSpaceChar with - | ⟨e, r⟩
  · rfl
  · have he : isSpaceChar e = false := dropWhile_head_false isSpaceChar v e r hv
    rcases hm : matchKw kwS (e :: r) with - | ⟨i, r2⟩
    · rw [qualify_cons_none hm, List.dropWhile_cons, if_neg (by rw [he]; simp)]
    · rw [qualify_cons_some hm]
      rcases hS with ⟨rfl, rfl⟩ | ⟨rfl, rfl⟩
      · rw [show fromUp ++ (' ' :: chinookDot) ++ i ++ qualify fromKw fromUp r2 =
          'F' :: (['R', 'O', 'M'] ++ (' ' :: chinookDot) ++ i ++
            qualify fromKw fromUp r2) from rfl]
        rw [List.dropWhile_cons, if_neg (by decide)]
      · rw [show joinUp ++ (' ' :: chinookDot) ++ i ++ qualify joinKw joinUp r2 =
          'J' :: (['O', 'I', 'N'] ++ (' ' :: chinookDot) ++ i ++
            qualify joinKw joinUp r2) from rfl]
        rw [List.dropWhile_cons, if_neg (by decide)]

theorem qual_ident_empty (kwS kwSUp : List Char)
    (hS : (kwS = fromKw ∧ kwSUp = fromUp) ∨ (kwS = joinKw ∧ kwSUp = joinUp))
    (v : List Char) (h : v.takeWhile isWordChar = []) :
    (qualify kwS kwSUp v).takeWhile isWordChar = [] := by
  cases v with
  | nil => rfl
  | cons e r =>
    rw [List.takeWhile_cons] at h
    have he : isWordChar e = false := by
      by_cases he : isWordChar e = true
      · rw [if_pos he] at h; simp at h
      · exact eq_false_of_ne_true he
    have hnone : matchKw kwS (e :: r) = none := by
      apply matchKw_none_of_head e r (hS.imp (fun a => a.1) (fun a => a.1))
      exact nonword_not_fj he
    rw [qualify_cons_none hnone, List.takeWhile_cons, if_neg (by rw [he]; simp)]


theorem matchKw_none_qualify (kwS kwSUp : List Char)
    (hS : (kwS = fromKw ∧ kwSUp = fromUp) ∨ (kwS = joinKw ∧ kwSUp = joinUp))
    (kh : Char) (ktail : List Char)
    (hlen : ktail.length = 3)
    (htail : ∀ x ∈ ktail, lc x ≠ 'f' ∧ lc x ≠ 'j')
    (c : Char) (u : List Char)
    (h : matchKw (kh :: ktail) (c :: u) = none) :
    matchKw (kh :: ktail) (c :: qualify kwS kwSUp u) = none := by
  by_cases hpre : ciPre (kh :: ktail) (c :: u) = true
  · -- the match failed on an inner condition; transfer each
    have hpre2 : ciPre ktail u = true := by
      have h0 : (decide (lc kh = lc c) && ciPre ktail u) = true := hpre
      exact Bool.and_elim_right h0
    have h3le : 3 ≤ u.length := by
      have := ciPre_length ktail u hpre2
      omega
    have hF := qualify_copy_prefix kwS kwSUp hS ktail u htail hpre2
    have hdropin : (c :: u).drop 4 = u.drop 3 := rfl
    have hdrop : (c :: qualify kwS kwSUp u).drop 4 =
        qualify kwS kwSUp (u.drop 3) := by
      show (qualify kwS kwSUp u).drop 3 = qualify kwS kwSUp (u.drop 3)
      rw [hF, hlen]
      have h33 : (u.take 3).length = 3 := by rw [List.length_take]; omega
      have hdl := List.drop_left (u.take 3) (qualify kwS kwSUp (u.drop 3))
      rw [h33] at hdl
      exact hdl
    have hcases := matchKw_none_cases hpre h
    rw [hdropin] at hcases
    apply matchKw_none_inner
    rw [hdrop]
    rcases hcases with hws | hlook | hident
    · exact Or.inl (qual_ws_empty kwS kwSUp hS (u.drop 3) hws)
    · refine Or.inr (Or.inl ?_)
      rw [dropWhile_space_qual kwS kwSUp hS]
      rw [ciPre_qualify kwS kwSUp hS ((u.drop 3).dropWhile isSpaceChar).length
        ((u.drop 3).dropWhile isSpaceChar) chinookDot rfl (by decide)]
      exact hlook
    · refine Or.inr (Or.inr ?_)
      rw [dropWhile_space_qual kwS kwSUp hS]
      exact qual_ident_empty kwS kwSUp hS _ hident
  · -- the case-insensitive keyword prefix already fails
    have hpre' : (decide (lc kh = lc c) && ciPre ktail u) = false :=
      eq_false_of_ne_true hpre
    rcases Bool.and_eq_false_iff.mp hpre' with hh | hh
    · apply matchKw_none_of_not_ciPre
      show (decide (lc kh = lc c) && ciPre ktail (qualify kwS kwSUp u)) = false
      rw [hh]
      rfl
    · apply matchKw_none_of_not_ciPre
      show (decide (lc kh = lc c) && ciPre ktail (qualify kwS kwSUp u)) = false
      rw [ciPre_qualify kwS kwSUp hS u.length u ktail rfl htail, hh]
      simp


theorem suffix_append_right {a b c : List Char} (h : a <:+ b) : a ++ c <:+ b ++ c := by
  obtain ⟨pre, hpre⟩ := h
  exact ⟨pre, by rw [← hpre, List.append_assoc]⟩

theorem matchKw_none_head2 {kh : Char} {ktail : List Char} (c : Char) (l : List Char)
    (hc : lc kh ≠ lc c) : matchKw (kh :: ktail) (c :: l) = none := by
  apply matchKw_none_of_not_ciPre
  show (decide (lc kh = lc c) && ciPre ktail l) = false
  simp [hc]

theorem matchKw_none_full_insert (kw kwUp : List Char) (hup : kwUp.length = 4)
    (X : List Char) :
    matchKw kw (kwUp ++ (' ' :: chinookDot) ++ X) = none := by
  apply matchKw_none_inner
  have hdrop : (kwUp ++ (' ' :: chinookDot) ++ X).drop 4 =
      ' ' :: (chinookDot ++ X) := by
    rw [List.append_assoc]
    have := List.drop_left kwUp ((' ' :: chinookDot) ++ X)
    rw [hup] at this
    rw [this]
    rfl
  rw [hdrop]
  refine Or.inr (Or.inl ?_)
  have h1 : (' ' :: (chinookDot ++ X)).dropWhile isSpaceChar =
      chinookDot ++ X := by
    rw [List.dropWhile_cons, if_pos (by decide)]
    show (('c' :: _) ++ X).dropWhile isSpaceChar = _
    rw [List.cons_append, List.dropWhile_cons, if_neg (by decide)]
    rfl
  rw [h1]
  exact ciPre_refl_append chinookDot X

theorem qualify_noMatch (kwS kwSUp : List Char)
    (hS : (kwS = fromKw ∧ kwSUp = fromUp) ∨ (kwS = joinKw ∧ kwSUp = joinUp))
    (kh : Char) (ktail : List Char)
    (hkwT : (kh :: ktail) = fromKw ∨ (kh :: ktail) = joinKw) :
    ∀ (n : Nat) (t : List Char), t.length = n →
    (∀ u, u <:+ t → matchKw kwS u = none → matchKw (kh :: ktail) u = none) →
    (∀ c w, (c :: w) <:+ t → isWordChar c = true → ciPre (kh :: ktail) w = false) →
    (∀ u i r, u <:+ t → matchKw kwS u = some (i, r) → ciEq i (kh :: ktail) = false) →
    ∀ v, v <:+ qualify kwS kwSUp t → matchKw (kh :: ktail) v = none := by
  have hlen : ktail.length = 3 := by
    rcases hkwT with h | h <;> · injection h with h1 h2; rw [h2]; rfl
  have htail : ∀ x ∈ ktail, lc x ≠ 'f' ∧ lc x ≠ 'j' := by
    rcases hkwT with h | h <;> · injection h with h1 h2; rw [h2]; decide
  have hkwordall : ∀ x ∈ (kh :: ktail), isWordChar x = true := by
    rcases hkwT with h | h <;> · rw [h]; decide
  intro n
  induction n using Nat.strong_induction_on with
  | _ n ih =>
    intro t hn hcopy hB hC v hv
    cases t with
    | nil =>
      rw [qualify_nil] at hv
      rw [List.suffix_nil] at hv
      subst hv
      exact matchKw_none_of_not_ciPre rfl
    | cons c t0 =>
      subst hn
      rcases hm : matchKw kwS (c :: t0) with - | ⟨i, r⟩
      · rw [qualify_cons_none hm] at hv
        rw [List.suffix_cons_iff] at hv
        rcases hv with rfl | hv
        · exact matchKw_none_qualify kwS kwSUp hS kh ktail hlen htail c t0
            (hcopy (c :: t0) (List.suffix_refl _) hm)
        · exact ih t0.length (by simp) t0 rfl
            (fun u hu => hcopy u (hu.trans (List.suffix_cons c t0)))
            (fun c2 w hw => hB c2 w (hw.trans (List.suffix_cons c t0)))
            (fun u i2 r2 hu => hC u i2 r2 (hu.trans (List.suffix_cons c t0)))
            v hv
      · -- a match was rewritten
        obtain ⟨hpre, hstruct, hws, hi, hr, hine, hlook⟩ := matchKw_some_facts hm
        have hiword : ∀ x ∈ i, isWordChar x = true := by
          rw [hi]; intro x hx; exact List.mem_takeWhile_imp hx
        have hir_suffix : i ++ r <:+ (c :: t0) := by
          have h1 : i ++ r <:+ (c :: t0).drop 4 := by
            rw [hstruct, List.append_assoc]
            exact List.suffix_append _ _
          exact h1.trans (List.drop_suffix 4 (c :: t0))
        rw [qualify_cons_some hm] at hv
        rw [show kwSUp ++ (' ' :: chinookDot) ++ i ++ qualify kwS kwSUp r =
          (kwSUp ++ (' ' :: chinookDot)) ++ (i ++ qualify kwS kwSUp r) from by
            simp [List.append_assoc]] at hv
        rcases suffix_append_cases hv with hv1 | ⟨a2, ha2, ha2ne, rfl⟩
        · -- inside ident ++ rewritten rest
          rcases suffix_append_cases hv1 with hv2 | ⟨w, hwsuff, hwne, rfl⟩
          · -- inside the rewritten rest: induction
            have hrlt := matchKw_rest_lt hm
            exact ih r.length (by simp only [List.length_cons] at hrlt ⊢; omega) r rfl
              (fun u hu => hcopy u
                (hu.trans ((List.suffix_append i r).trans hir_suffix)))
              (fun c2 w hw => hB c2 w
                ((hw.trans (List.suffix_append i r)).trans hir_suffix))
              (fun u i2 r2 hu => hC u i2 r2
                ((hu.trans (List.suffix_append i r)).trans hir_suffix))
              v hv2
          · -- v = w ++ qualify r with w a nonempty suffix of the ident
            by_cases hciw : ciPre (kh :: ktail) (w ++ qualify kwS kwSUp r) = true
            · rcases Nat.lt_or_ge w.length 4 with hlt | hge
              · -- the keyword would have to continue past the ident: impossible
                exfalso
                have hsplit := (ciPre_append_split w (kh :: ktail)
                  (qualify kwS kwSUp r) (by simp only [List.length_cons]; omega)).mp hciw
                obtain ⟨-, h2⟩ := hsplit
                have hdropne : (kh :: ktail).drop w.length ≠ [] := by
                  rw [ne_eq, List.drop_eq_nil_iff]
                  simp only [List.length_cons]
                  omega
                obtain ⟨x, rest, hxr⟩ := List.exists_cons_of_ne_nil hdropne
                have hxword : isWordChar x = true := by
                  apply hkwordall
                  apply List.mem_of_mem_drop (n := w.length)
                  rw [hxr]
                  exact List.mem_cons_self x rest
                rw [hxr] at h2
                rcases hrc : r with - | ⟨e, r2⟩
                · subst hrc
                  rw [qualify_nil] at h2
                  exact absurd h2 (by simp [ciPre])
                · have he : isWordChar e = false := by
                    have := dropWhile_head_false isWordChar
                      ((((c :: t0).drop 4)).dropWhile isSpaceChar) e r2 (by rw [← hr, hrc])
                    exact this
                  have hnone : matchKw kwS (e :: r2) = none := by
                    apply matchKw_none_of_head e r2 (hS.imp (fun a => a.1) (fun a => a.1))
                    exact nonword_not_fj he
                  rw [hrc, qualify_cons_none hnone] at h2
                  have : (decide (lc x = lc e) && ciPre rest (qualify kwS kwSUp r2)) =
                      true := h2
                  have hxe := Bool.and_elim_left this
                  rw [decide_eq_true_eq] at hxe
                  have := isWordChar_of_lc_eq hxe
                  rw [hxword, he] at this
                  exact absurd this (by simp)
              · -- the keyword fits inside the ident suffix
                have hciww : ciPre (kh :: ktail) w = true := by
                  rw [← ciPre_append_left (kh :: ktail) w (qualify kwS kwSUp r)
                    (by simp only [List.length_cons]; omega)]
                  exact hciw
                by_cases hwi : w = i
                · subst hwi
                  rcases Nat.eq_or_lt_of_le hge with h4 | h4
                  · -- the ident is exactly the keyword: excluded hazard
                    exfalso
                    have hceq : ciEq w (kh :: ktail) = true :=
                      ciEq_of_ciPre (kh :: ktail) w hciww
                        (by simp only [List.length_cons]; omega)
                    have := hC (c :: t0) w r (List.suffix_refl _) hm
                    rw [hceq] at this
                    exact absurd this (by simp)
                  · -- the ident continues with a word character: no whitespace
                    apply matchKw_none_inner
                    refine Or.inl ?_
                    have hdropw : (w ++ qualify kwS kwSUp r).drop 4 =
                        w.drop 4 ++ qualify kwS kwSUp r :=
                      List.drop_append_of_le_length (by omega)
                    rw [hdropw]
                    have hdne : w.drop 4 ≠ [] := by
                      rw [ne_eq, List.drop_eq_nil_iff]
                      omega
                    obtain ⟨d, rest2, hd⟩ := List.exists_cons_of_ne_nil hdne
                    rw [hd, List.cons_append, List.takeWhile_cons, if_neg]
                    rw [word_not_space d]
                    · simp
                    · apply hiword
                      apply List.mem_of_mem_drop (n := 4)
                      rw [hd]
                      exact List.mem_cons_self d rest2
                · -- proper suffix of the ident: embedded-keyword hazard
                  exfalso
                  obtain ⟨cp, hcp⟩ := exists_cons_of_proper_suffix hwsuff hwi
                  have hcpword : isWordChar cp = true := by
                    apply hiword
                    exact hcp.subset (List.mem_cons_self cp w)
                  have hsuf : (cp :: (w ++ r)) <:+ (c :: t0) := by
                    have h1 : (cp :: w) ++ r <:+ i ++ r := suffix_append_right hcp
                    exact (h1.trans hir_suffix)
                  have hBapp := hB cp (w ++ r) hsuf hcpword
                  have : ciPre (kh :: ktail) (w ++ r) = true := by
                    rw [ciPre_append_left (kh :: ktail) w r
                      (by simp only [List.length_cons]; omega)]
                    exact hciww
                  rw [hBapp] at this
                  exact absurd this (by simp)
            · exact matchKw_none_of_not_ciPre (eq_false_of_ne_true hciw)
        · -- v starts inside the inserted literal
          rcases hS with ⟨rfl, rfl⟩ | ⟨rfl, rfl⟩
          · -- literal FROM chinook.
            have ha2' : a2 <:+ ['F', 'R', 'O', 'M', ' ', 'c', 'h', 'i', 'n', 'o',
              'o', 'k', '.'] := ha2
            simp only [List.suffix_cons_iff, List.suffix_nil] at ha2'
            rcases ha2' with rfl | rfl | rfl | rfl | rfl | rfl | rfl | rfl | rfl |
              rfl | rfl | rfl | rfl | rfl
            · exact matchKw_none_full_insert _ fromUp rfl _
            · exact matchKw_none_head2 _ _ (by
                rcases hkwT with h | h <;> injection h with h1 h2 <;> rw [h1] <;> decide)
            · exact matchKw_none_head2 _ _ (by
                rcases hkwT with h | h <;> injection h with h1 h2 <;> rw [h1] <;> decide)
            · exact matchKw_none_head2 _ _ (by
                rcases hkwT with h | h <;> injection h with h1 h2 <;> rw [h1] <;> decide)
            · exact matchKw_none_head2 _ _ (by
                rcases hkwT with h | h <;> injection h with h1 h2 <;> rw [h1] <;> decide)
            · exact matchKw_none_head2 _ _ (by
                rcases hkwT with h | h <;> injection h with h1 h2 <;> rw [h1] <;> decide)
            · exact matchKw_none_head2 _ _ (by
                rcases hkwT with h | h <;> injection h with h1 h2 <;> rw [h1] <;> decide)
            · exact matchKw_none_head2 _ _ (by
                rcases hkwT with h | h <;> injection h with h1 h2 <;> rw [h1] <;> decide)
            · exact matchKw_none_head2 _ _ (by
                rcases hkwT with h | h <;> injection h with h1 h2 <;> rw [h1] <;> decide)
            · exact matchKw_none_head2 _ _ (by
                rcases hkwT with h | h <;> injection h with h1 h2 <;> rw [h1] <;> decide)
            · exact matchKw_none_head2 _ _ (by
                rcases hkwT with h | h <;> injection h with h1 h2 <;> rw [h1] <;> decide)
            · exact matchKw_none_head2 _ _ (by
                rcases hkwT with h | h <;> injection h with h1 h2 <;> rw [h1] <;> decide)
            · exact matchKw_none_head2 _ _ (by
                rcases hkwT with h | h <;> injection h with h1 h2 <;> rw [h1] <;> decide)
            · exact absurd rfl ha2ne
          · -- literal JOIN chinook.
            have ha2' : a2 <:+ ['J', 'O', 'I', 'N', ' ', 'c', 'h', 'i', 'n', 'o',
              'o', 'k', '.'] := ha2
            simp only [List.suffix_cons_iff, List.suffix_nil] at ha2'
            rcases ha2' with rfl | rfl | rfl | rfl | rfl | rfl | rfl | rfl | rfl |
              rfl | rfl | rfl | rfl | rfl
            · exact matchKw_none_full_insert _ joinUp rfl _
            · exact matchKw_none_head2 _ _ (by
                rcases hkwT with h | h <;> injection h with h1 h2 <;> rw [h1] <;> decide)
            · exact matchKw_none_head2 _ _ (by
                rcases hkwT with h | h <;> injection h with h1 h2 <;> rw [h1] <;> decide)
            · exact matchKw_none_head2 _ _ (by
                rcases hkwT with h | h <;> injection h with h1 h2 <;> rw [h1] <;> decide)
            · exact matchKw_none_head2 _ _ (by
                rcases hkwT with h | h <;> injection h with h1 h2 <;> rw [h1] <;> decide)
            · exact matchKw_none_head2 _ _ (by
                rcases hkwT with h | h <;> injection h with h1 h2 <;> rw [h1] <;> decide)
            · exact matchKw_none_head2 _ _ (by
                rcases hkwT with h | h <;> injection h with h1 h2 <;> rw [h1] <;> decide)
            · exact matchKw_none_head2 _ _ (by
                rcases hkwT with h | h <;> injection h with h1 h2 <;> rw [h1] <;> decide)
            · exact matchKw_none_head2 _ _ (by
                rcases hkwT with h | h <;> injection h with h1 h2 <;> rw [h1] <;> decide)
            · exact matchKw_none_head2 _ _ (by
                rcases hkwT with h | h <;> injection h with h1 h2 <;> rw [h1] <;> decide)
            · exact matchKw_none_head2 _ _ (by
                rcases hkwT with h | h <;> injection h with h1 h2 <;> rw [h1] <;> decide)
            · exact matchKw_none_head2 _ _ (by
                rcases hkwT with h | h <;> injection h with h1 h2 <;> rw [h1] <;> decide)
            · exact matchKw_none_head2 _ _ (by
                rcases hkwT with h | h <;> injection h with h1 h2 <;> rw [h1] <;> decide)
            · exact absurd rfl ha2ne


theorem ciPre_cons_false {p1 c : Char} (pt l : List Char) (h : lc p1 ≠ lc c) :
    ciPre (p1 :: pt) (c :: l) = false := by
  simp [ciPre, h]

theorem qualify_noDbl (kwS kwSUp : List Char)
    (hS : (kwS = fromKw ∧ kwSUp = fromUp) ∨ (kwS = joinKw ∧ kwSUp = joinUp)) :
    ∀ (n : Nat) (t : List Char), t.length = n →
    (∀ u, u <:+ t → ciPre doublePat u = false) →
    ∀ v, v <:+ qualify kwS kwSUp t → ciPre doublePat v = false := by
  intro n
  induction n using Nat.strong_induction_on with
  | _ n ih =>
    intro t hn hnd v hv
    cases t with
    | nil =>
      rw [qualify_nil] at hv
      rw [List.suffix_nil] at hv
      subst hv
      rfl
    | cons c t0 =>
      subst hn
      rcases hm : matchKw kwS (c :: t0) with - | ⟨i, r⟩
      · rw [qualify_cons_none hm] at hv
        rw [List.suffix_cons_iff] at hv
        rcases hv with rfl | hv
        · have hE := ciPre_qualify kwS kwSUp hS t0.length t0 doublePat.tail rfl
            (by decide)
          have h0 := hnd (c :: t0) (List.suffix_refl _)
          show ciPre doublePat (c :: qualify kwS kwSUp t0) = false
          rcases hd : decide (lc 'c' = lc c) with - | -
          · show (decide (lc 'c' = lc c) && _) = false
            rw [hd]
            rfl
          · have h1 : ciPre doublePat (c :: t0) =
                (decide (lc 'c' = lc c) && ciPre doublePat.tail t0) := rfl
            rw [h1, hd] at h0
            show (decide (lc 'c' = lc c) && ciPre doublePat.tail
              (qualify kwS kwSUp t0)) = false
            rw [hd, hE]
            simpa using h0
        · exact ih t0.length (by simp) t0 rfl
            (fun u hu => hnd u (hu.trans (List.suffix_cons c t0))) v hv
      · obtain ⟨hpre, hstruct, hws, hi, hr, hine, hlook⟩ := matchKw_some_facts hm
        have hir_suffix : i ++ r <:+ (c :: t0) := by
          have h1 : i ++ r <:+ (c :: t0).drop 4 := by
            rw [hstruct, List.append_assoc]
            exact List.suffix_append _ _
          exact h1.trans (List.drop_suffix 4 (c :: t0))
        rw [qualify_cons_some hm] at hv
        rw [show kwSUp ++ (' ' :: chinookDot) ++ i ++ qualify kwS kwSUp r =
          (kwSUp ++ (' ' :: chinookDot)) ++ (i ++ qualify kwS kwSUp r) from by
            simp [List.append_assoc]] at hv
        rcases suffix_append_cases hv with hv1 | ⟨a2, ha2, ha2ne, rfl⟩
        · rcases suffix_append_cases hv1 with hv2 | ⟨w, hwsuff, hwne, rfl⟩
          · have hrlt := matchKw_rest_lt hm
            exact ih r.length (by simp only [List.length_cons] at hrlt ⊢; omega) r rfl
              (fun u hu => hnd u
                (hu.trans ((List.suffix_append i r).trans hir_suffix)))
              v hv2
          · -- v = w ++ qualify r, w a nonempty suffix of the ident:
            -- any doubled-prefix match here pulls back to the input
            by_cases hciw : ciPre doublePat (w ++ qualify kwS kwSUp r) = true
            · exfalso
              have hpull : ciPre doublePat (w ++ r) = true := by
                rcases le_or_lt w.length 16 with hle | hgt
                · have hsplit := (ciPre_append_split w doublePat
                    (qualify kwS kwSUp r) (by simpa [doublePat] using hle)).mp hciw
                  obtain ⟨h1, h2⟩ := hsplit
                  rw [ciPre_qualify kwS kwSUp hS r.length r (doublePat.drop w.length)
                    rfl (by
                      intro x hx
                      have hmem : x ∈ doublePat := List.mem_of_mem_drop hx
                      fin_cases hmem <;> decide)] at h2
                  exact (ciPre_append_split w doublePat r
                    (by simpa [doublePat] using hle)).mpr ⟨h1, h2⟩
                · have h16 : doublePat.length ≤ w.length := by
                    simp only [doublePat]
                    simp only [List.length_cons, List.length_nil]
                    omega
                  rw [ciPre_append_left doublePat w r h16]
                  rw [ciPre_append_left doublePat w (qualify kwS kwSUp r) h16] at hciw
                  exact hciw
              have hsuf : w ++ r <:+ (c :: t0) :=
                (suffix_append_right hwsuff).trans hir_suffix
              rw [hnd (w ++ r) hsuf] at hpull
              exact absurd hpull (by simp)
            · exact eq_false_of_ne_true hciw
        · -- v starts inside the inserted literal
          have hIQ : ciPre chinookDot (i ++ qualify kwS kwSUp r) = false := by
            by_cases hcq : ciPre chinookDot (i ++ qualify kwS kwSUp r) = true
            · exfalso
              have hpull : ciPre chinookDot (i ++ r) = true := by
                rcases le_or_lt i.length 8 with hle | hgt
                · have hsplit := (ciPre_append_split i chinookDot
                    (qualify kwS kwSUp r) (by simpa [chinookDot] using hle)).mp hcq
                  obtain ⟨h1, h2⟩ := hsplit
                  rw [ciPre_qualify kwS kwSUp hS r.length r (chinookDot.drop i.length)
                    rfl (by
                      intro x hx
                      have hmem : x ∈ chinookDot := List.mem_of_mem_drop hx
                      fin_cases hmem <;> decide)] at h2
                  exact (ciPre_append_split i chinookDot r
                    (by simpa [chinookDot] using hle)).mpr ⟨h1, h2⟩
                · have h8 : chinookDot.length ≤ i.length := by
                    simp only [chinookDot]
                    simp only [List.length_cons, List.length_nil]
                    omega
                  rw [ciPre_append_left chinookDot i r h8]
                  rw [ciPre_append_left chinookDot i (qualify kwS kwSUp r) h8] at hcq
                  exact hcq
              rw [hlook] at hpull
              exact absurd hpull (by simp)
            · exact eq_false_of_ne_true hcq
          rcases hS with ⟨rfl, rfl⟩ | ⟨rfl, rfl⟩
          · have ha2' : a2 <:+ ['F', 'R', 'O', 'M', ' ', 'c', 'h', 'i', 'n', 'o',
              'o', 'k', '.'] := ha2
            simp only [List.suffix_cons_iff, List.suffix_nil] at ha2'
            rcases ha2' with rfl | rfl | rfl | rfl | rfl | rfl | rfl | rfl | rfl |
              rfl | rfl | rfl | rfl | rfl
            · exact ciPre_cons_false _ _ (by decide)
            · exact ciPre_cons_false _ _ (by decide)
            · exact ciPre_cons_false _ _ (by decide)
            · exact ciPre_cons_false _ _ (by decide)
            · exact ciPre_cons_false _ _ (by decide)
            · -- the inserted chinook. itself: the lookahead blocks a double
              show ciPre doublePat
                (('c' :: ['h', 'i', 'n', 'o', 'o', 'k', '.']) ++
                  (i ++ qualify fromKw fromUp r)) = false
              by_cases hq : ciPre doublePat
                  (('c' :: ['h', 'i', 'n', 'o', 'o', 'k', '.']) ++
                    (i ++ qualify fromKw fromUp r)) = true
              · exfalso
                have hsplit := (ciPre_append_split
                  ('c' :: ['h', 'i', 'n', 'o', 'o', 'k', '.']) doublePat
                  (i ++ qualify fromKw fromUp r) (by decide)).mp hq
                obtain ⟨-, h2⟩ := hsplit
                rw [show doublePat.drop
                  ('c' :: ['h', 'i', 'n', 'o', 'o', 'k', '.']).length =
                  chinookDot from rfl] at h2
                rw [hIQ] at h2
                exact absurd h2 (by simp)
              · exact eq_false_of_ne_true hq
            · exact ciPre_cons_false _ _ (by decide)
            · exact ciPre_cons_false _ _ (by decide)
            · exact ciPre_cons_false _ _ (by decide)
            · exact ciPre_cons_false _ _ (by decide)
            · exact ciPre_cons_false _ _ (by decide)
            · exact ciPre_cons_false _ _ (by decide)
            · exact ciPre_cons_false _ _ (by decide)
            · exact absurd rfl ha2ne
          · have ha2' : a2 <:+ ['J', 'O', 'I', 'N', ' ', 'c', 'h', 'i', 'n', 'o',
              'o', 'k', '.'] := ha2
            simp only [List.suffix_cons_iff, List.suffix_nil] at ha2'
            rcases ha2' with rfl | rfl | rfl | rfl | rfl | rfl | rfl | rfl | rfl |
              rfl | rfl | rfl | rfl | rfl
            · exact ciPre_cons_false _ _ (by decide)
            · exact ciPre_cons_false _ _ (by decide)
            · exact ciPre_cons_false _ _ (by decide)
            · exact ciPre_cons_false _ _ (by decide)
            · exact ciPre_cons_false _ _ (by decide)
            · show ciPre doublePat
                (('c' :: ['h', 'i', 'n', 'o', 'o', 'k', '.']) ++
                  (i ++ qualify joinKw joinUp r)) = false
              by_cases hq : ciPre doublePat
                  (('c' :: ['h', 'i', 'n', 'o', 'o', 'k', '.']) ++
                    (i ++ qualify joinKw joinUp r)) = true
              · exfalso
                have hsplit := (ciPre_append_split
                  ('c' :: ['h', 'i', 'n', 'o', 'o', 'k', '.']) doublePat
                  (i ++ qualify joinKw joinUp r) (by decide)).mp hq
                obtain ⟨-, h2⟩ := hsplit
                rw [show doublePat.drop
                  ('c' :: ['h', 'i', 'n', 'o', 'o', 'k', '.']).length =
                  chinookDot from rfl] at h2
                rw [hIQ] at h2
                exact absurd h2 (by simp)
              · exact eq_false_of_ne_true hq
            · exact ciPre_cons_false _ _ (by decide)
            · exact ciPre_cons_false _ _ (by decide)
            · exact ciPre_cons_false _ _ (by decide)
            · exact ciPre_cons_false _ _ (by decide)
            · exact ciPre_cons_false _ _ (by decide)
            · exact ciPre_cons_false _ _ (by decide)
            · exact ciPre_cons_false _ _ (by decide)
            · exact absurd rfl ha2ne


theorem allSuff_iff (p : List Char → Bool) :
    ∀ l, allSuff p l = true ↔ ∀ u, u <:+ l → p u = true := by
  intro l
  induction l with
  | nil =>
    simp only [allSuff]
    constructor
    · intro h u hu
      rw [List.suffix_nil] at hu
      subst hu
      exact h
    · intro h; exact h [] (List.suffix_refl _)
  | cons c t ih =>
    simp only [allSuff, Bool.and_eq_true, ih]
    constructor
    · intro ⟨h1, h2⟩ u hu
      rw [List.suffix_cons_iff] at hu
      rcases hu with rfl | hu
      · exact h1
      · exact h2 u hu
    · intro h
      exact ⟨h (c :: t) (List.suffix_refl _),
        fun u hu => h u (hu.trans (List.suffix_cons c t))⟩

theorem hazAt_components {u : List Char} (h : hazAt u = false) :
    ciPre doublePat u = false ∧ midKwHaz fromKw u = false ∧
    midKwHaz joinKw u = false ∧ kwIdentHaz fromKw fromKw u = false ∧
    kwIdentHaz fromKw joinKw u = false ∧ kwIdentHaz joinKw fromKw u = false ∧
    kwIdentHaz joinKw joinKw u = false := by
  unfold hazAt at h
  simp only [Bool.or_eq_false_iff] at h
  tauto

theorem hazFree_suffix {l u : List Char} (h : hazFree l = true) (hu : u <:+ l) :
    hazAt u = false := by
  have := (allSuff_iff (fun u => !hazAt u) l).mp h u hu
  simpa using this

theorem hazFree_noDbl {l : List Char} (h : hazFree l = true) :
    ∀ u, u <:+ l → ciPre doublePat u = false :=
  fun u hu => (hazAt_components (hazFree_suffix h hu)).1

theorem hazFree_noMidFrom {l : List Char} (h : hazFree l = true) :
    ∀ c w, (c :: w) <:+ l → isWordChar c = true → ciPre fromKw w = false := by
  intro c w hw hword
  have h0 := (hazAt_components (hazFree_suffix h hw)).2.1
  have h1 : (isWordChar c && ciPre fromKw w) = false := h0
  rw [hword] at h1
  simpa using h1

theorem hazFree_noMidJoin {l : List Char} (h : hazFree l = true) :
    ∀ c w, (c :: w) <:+ l → isWordChar c = true → ciPre joinKw w = false := by
  intro c w hw hword
  have h0 := (hazAt_components (hazFree_suffix h hw)).2.2.1
  have h1 : (isWordChar c && ciPre joinKw w) = false := h0
  rw [hword] at h1
  simpa using h1

theorem hazFree_noIdentFF {l : List Char} (h : hazFree l = true) :
    ∀ u i r, u <:+ l → matchKw fromKw u = some (i, r) → ciEq i fromKw = false := by
  intro u i r hu hm
  have := (hazAt_components (hazFree_suffix h hu)).2.2.2.1
  unfold kwIdentHaz at this
  rw [hm] at this
  exact this

theorem hazFree_noIdentJF {l : List Char} (h : hazFree l = true) :
    ∀ u i r, u <:+ l → matchKw joinKw u = some (i, r) → ciEq i fromKw = false := by
  intro u i r hu hm
  have := (hazAt_components (hazFree_suffix h hu)).2.2.2.2.2.1
  unfold kwIdentHaz at this
  rw [hm] at this
  exact this

theorem hazFree_noIdentJJ {l : List Char} (h : hazFree l = true) :
    ∀ u i r, u <:+ l → matchKw joinKw u = some (i, r) → ciEq i joinKw = false := by
  intro u i r hu hm
  have := (hazAt_components (hazFree_suffix h hu)).2.2.2.2.2.2
  unfold kwIdentHaz at this
  rw [hm] at this
  exact this

theorem sqlWithSchemaRewriteL_idem {d : List Char}
    (h1 : hazFree d = true)
    (h2 : hazFree (qualify fromKw fromUp (collapse d)) = true) :
    sqlWithSchemaRewriteL (sqlWithSchemaRewriteL d) = sqlWithSchemaRewriteL d := by
  have hcd : collapse d = d := collapse_id_of_noDbl d (hazFree_noDbl h1)
  rw [hcd] at h2
  have hNMf_m : ∀ v, v <:+ qualify fromKw fromUp d → matchKw fromKw v = none := by
    intro v hv
    exact qualify_noMatch fromKw fromUp (Or.inl ⟨rfl, rfl⟩) 'f' ['r', 'o', 'm']
      (Or.inl rfl) d.length d rfl (fun u _ hn => hn)
      (hazFree_noMidFrom h1) (hazFree_noIdentFF h1) v hv
  have hNMj_o : ∀ v, v <:+ qualify joinKw joinUp (qualify fromKw fromUp d) →
      matchKw joinKw v = none := by
    intro v hv
    exact qualify_noMatch joinKw joinUp (Or.inr ⟨rfl, rfl⟩) 'j' ['o', 'i', 'n']
      (Or.inr rfl) (qualify fromKw fromUp d).length (qualify fromKw fromUp d) rfl
      (fun u _ hn => hn) (hazFree_noMidJoin h2) (hazFree_noIdentJJ h2) v hv
  have hNMf_o : ∀ v, v <:+ qualify joinKw joinUp (qualify fromKw fromUp d) →
      matchKw fromKw v = none := by
    intro v hv
    exact qualify_noMatch joinKw joinUp (Or.inr ⟨rfl, rfl⟩) 'f' ['r', 'o', 'm']
      (Or.inl rfl) (qualify fromKw fromUp d).length (qualify fromKw fromUp d) rfl
      (fun u hu _ => hNMf_m u hu) (hazFree_noMidFrom h2) (hazFree_noIdentJF h2) v hv
  have hND_m : ∀ v, v <:+ qualify fromKw fromUp d → ciPre doublePat v = false := by
    intro v hv
    exact qualify_noDbl fromKw fromUp (Or.inl ⟨rfl, rfl⟩) d.length d rfl
      (hazFree_noDbl h1) v hv
  have hND_o : ∀ v, v <:+ qualify joinKw joinUp (qualify fromKw fromUp d) →
      ciPre doublePat v = false := by
    intro v hv
    exact qualify_noDbl joinKw joinUp (Or.inr ⟨rfl, rfl⟩)
      (qualify fromKw fromUp d).length (qualify fromKw fromUp d) rfl hND_m v hv
  show sqlWithSchemaRewriteL (sqlWithSchemaRewriteL d) = sqlWithSchemaRewriteL d
  unfold sqlWithSchemaRewriteL
  rw [hcd]
  rw [collapse_id_of_noDbl _ hND_o]
  rw [qualify_id_of_noMatch fromKw fromUp _ hNMf_o]
  rw [qualify_id_of_noMatch joinKw joinUp _ hNMj_o]


/-- C2 counterexample: the schema-qualification rewrite is not idempotent.
On `FROM chinook.chinook.chinook.t` one application leaves
`FROM chinook.chinook.t` (the global replace does not rescan its own
replacement), and a second application changes the string again; the
single application also leaves a `chinook.chinook.` doubling. -/
theorem c2_rewrite_not_idempotent :
    sqlWithSchemaRewrite (sqlWithSchemaRewrite "FROM chinook.chinook.chinook.t") ≠
      sqlWithSchemaRewrite "FROM chinook.chinook.chinook.t" ∧
    sqlWithSchemaRewrite "FROM chinook.chinook.chinook.t" =
      "FROM chinook.chinook.t" := by
  refine ⟨by decide, by decide⟩

/-- C2 as amended: the rewrite is idempotent on every hazard-free input:
no doubled `chinook.chinook.` prefix (in the input or after the `FROM`
pass), no `FROM`/`JOIN` occurrence embedded directly after a word
character, and no captured table identifier that is itself one of the
keywords.  `rewriteSafe` is decidable and holds for ordinary SQL. -/
theorem c2_amended_idempotent (s : String) (h : rewriteSafe s.data = true) :
    sqlWithSchemaRewrite (sqlWithSchemaRewrite s) = sqlWithSchemaRewrite s := by
  have h1 : hazFree s.data = true := Bool.and_elim_left h
  have h2 : hazFree (qualify fromKw fromUp (collapse s.data)) = true :=
    Bool.and_elim_right h
  exact congrArg String.mk (sqlWithSchemaRewriteL_idem h1 h2)

/-- Witness for the amended C2 at a concrete hazard-free query. -/
theorem c2_amended_witness :
    rewriteSafe ("SELECT * FROM customers").data = true ∧
    sqlWithSchemaRewrite (sqlWithSchemaRewrite "SELECT * FROM customers") =
      sqlWithSchemaRewrite "SELECT * FROM customers" :=
  ⟨by decide, c2_amended_idempotent "SELECT * FROM customers" (by decide)⟩

end SqlOfThought
